import Mathlib

/-!
Shallow embedding of the `go-binarytree` package (binarytree.go) and its
vendored deque (gopkg.in/dnaeon/go-deque.v1/deque.go), together with proofs
about the traversal engine, the structural predicates and the search
operation.

Modelling conventions:
* Go's nullable pointer `*Node[T]` is modelled by the inductive `Node T`
  with a `nil` constructor (`Node.nil` = the Go `nil` pointer).
* The vendored `Deque[T]` is a list-backed structure; `PopFront` returns
  `Option` where `none` models the `ErrEmptyQueue` error value.
* Each iterative Go loop becomes a well-founded recursive function on the
  loop state.  A walk returns `Option (List (Node T) × Option ε)`:
  `none` models reaching an `ErrEmptyQueue` branch (the `panic(err)` calls,
  and the `return err` in the second phase of `WalkPostOrder`); a
  `some (vs, e)` result carries the sequence `vs` of nodes on which the
  caller-supplied visitor was invoked, in invocation order, and the value
  `e` returned by the walk (`none` = the Go `nil` error, `some x` = the
  error value `x` produced by the visitor).
* The `skipNodeFuncs` field of the receiver node is passed to each method
  as an explicit `skips` argument.
-/

namespace BinaryTree

/-- Go `Node[T]` / `*Node[T]` (binarytree.go lines 51-67): a binary-tree
vertex with a value and two nullable child pointers.  `Node.nil` models the
`nil` pointer.  The `skipNodeFuncs` field is passed around explicitly; the
`dotAttributes` field only feeds the Dot exporter and is not modelled. -/
inductive Node (T : Type u) : Type u where
  | nil : Node T
  | node (value : T) (left : Node T) (right : Node T) : Node T
deriving DecidableEq

namespace Node

/-- The `Left` field of a node (`nil` has no fields; reading through a `nil`
pointer would crash in Go and is never done by the modelled code on real
trees). -/
def left : Node T → Node T
  | .nil => .nil
  | .node _ l _ => l

/-- The `Right` field of a node. -/
def right : Node T → Node T
  | .nil => .nil
  | .node _ _ r => r

/-- Whether a `*Node[T]` pointer is `nil` (Go `n == nil`). -/
def isNil : Node T → Bool
  | .nil => true
  | .node _ _ _ => false

end Node

/-- Number of nodes of the subtree hanging off a pointer (0 for `nil`).
Used as the termination measure of the iterative loops and as the
specification-level node count. -/
def nsize : Node T → Nat
  | .nil => 0
  | .node _ l r => 1 + nsize l + nsize r

/-- Termination-measure weight of one worklist entry. -/
def cost (n : Node T) : Nat := 2 * nsize n + 1

/-- Termination-measure weight of a worklist. -/
def costList : List (Node T) → Nat
  | [] => 0
  | n :: rest => cost n + costList rest

/-- Go `SkipNodeFunc[T]` (binarytree.go line 42). -/
abbrev SkipNodeFunc (T : Type u) := Node T → Bool

/-- Go `WalkFunc[T]` (binarytree.go line 38): the visitor; `none` models
returning the `nil` error, `some e` models returning the error `e`. -/
abbrev WalkFunc (T : Type u) (ε : Type v) := Node T → Option ε

/-- Go `FindFunc[T]` (binarytree.go line 48). -/
abbrev FindFunc (T : Type u) := Node T → Bool

/-- Go `IsLeaf` (binarytree.go lines 291-293): both children are `nil`. -/
def IsLeaf (n : Node T) : Bool := n.left.isNil && n.right.isNil

/-- Go `AddSkipNodeFunc` (binarytree.go lines 297-299): appends a handler to
the receiver's `skipNodeFuncs` list. -/
def AddSkipNodeFunc (skips : List (SkipNodeFunc T)) (handler : SkipNodeFunc T) :
    List (SkipNodeFunc T) :=
  skips ++ [handler]

/-- Go `shouldSkipNode` (binarytree.go lines 304-312): applies the
receiver's `skipNodeFuncs` in registration order, returning `true` as soon
as one handler returns `true`. -/
def shouldSkipNode (skips : List (SkipNodeFunc T)) (node : Node T) : Bool :=
  match skips with
  | [] => false
  | handler :: rest => handler node || shouldSkipNode rest node

/-- The vendored Go `Deque[T]` (deque.go lines 37-40); the mutex only
serializes single calls and is irrelevant to the single-threaded walks. -/
structure Deque (α : Type u) : Type u where
  items : List α

namespace Deque

/-- Go `deque.New` (deque.go lines 42-48). -/
def new : Deque α := ⟨[]⟩

/-- Go `PushFront` (deque.go lines 58-62). -/
def pushFront (d : Deque α) (value : α) : Deque α := ⟨value :: d.items⟩

/-- Go `PushBack` (deque.go lines 51-55). -/
def pushBack (d : Deque α) (value : α) : Deque α := ⟨d.items ++ [value]⟩

/-- Go `IsEmpty` (deque.go lines 65-69): `len(d.items) == 0`. -/
def isEmpty (d : Deque α) : Bool := d.items.isEmpty

/-- Go `PopFront` (deque.go lines 89-102): `none` models returning the
`ErrEmptyQueue` error on an empty deque; otherwise the front item is
removed and returned. -/
def popFront (d : Deque α) : Option (α × Deque α) :=
  match d.items with
  | [] => none
  | x :: xs => some (x, ⟨xs⟩)

theorem popFront_some {d : Deque α} {x : α} {d' : Deque α}
    (h : d.popFront = some (x, d')) : d.items = x :: d'.items := by
  cases d with
  | mk items =>
    cases items with
    | nil => simp [popFront] at h
    | cons y ys =>
      simp only [popFront] at h
      cases h
      rfl

theorem isEmpty_false_iff {d : Deque α} : d.isEmpty = false ↔ d.items ≠ [] := by
  cases d with
  | mk items => cases items <;> simp [isEmpty]

theorem isEmpty_true_iff {d : Deque α} : d.isEmpty = true ↔ d.items = [] := by
  cases d with
  | mk items => cases items <;> simp [isEmpty]

end Deque

/-- Push a node on the front of a deque when the pointer is not `nil`,
modelling the guarded `if node.X != nil { stack.PushFront(node.X) }`
statements of the Go walks. -/
def pushFrontNN (m : Node T) (d : Deque (Node T)) : Deque (Node T) :=
  match m with
  | .nil => d
  | .node v l r => d.pushFront (.node v l r)

/-- Push a node on the back of a deque when the pointer is not `nil`,
modelling the guarded `if node.X != nil { queue.PushBack(node.X) }`
statements of `WalkLevelOrder`. -/
def pushBackNN (m : Node T) (d : Deque (Node T)) : Deque (Node T) :=
  match m with
  | .nil => d
  | .node v l r => d.pushBack (.node v l r)

/-- The inner loop of Go `WalkInOrder` (binarytree.go lines 105-112):
starting from the cursor `node`, keep pushing the current node and
descending into its left child until the cursor is `nil` or a registered
skip handler fires (in which case the cursor is zeroed and the descent
stops).  Returns the deque after the descent. -/
def descend (skips : List (SkipNodeFunc T)) :
    Node T → Deque (Node T) → Deque (Node T)
  | .nil, stack => stack
  | .node v l r, stack =>
    if shouldSkipNode skips (.node v l r) then stack
    else descend skips l (stack.pushFront (.node v l r))

/-- Remaining in-order workload of a worklist: each stacked node still has
to be visited and its right subtree walked. -/
def workIn : List (Node T) → Nat
  | [] => 0
  | p :: rest => 1 + nsize p.right + workIn rest

theorem workIn_descend (skips : List (SkipNodeFunc T)) :
    ∀ (n : Node T) (stack : Deque (Node T)),
      workIn (descend skips n stack).items ≤ nsize n + workIn stack.items := by
  intro n
  induction n with
  | nil => intro stack; simp [descend, nsize]
  | node v l r ihl ihr =>
    intro stack
    by_cases h : shouldSkipNode skips (.node v l r) = true
    · simp [descend, h, nsize]
    · rw [Bool.not_eq_true] at h
      have step := ihl (stack.pushFront (.node v l r))
      simp [descend, h]
      simp [Deque.pushFront, workIn, Node.right, nsize] at step ⊢
      omega

/-- Outer loop of Go `WalkInOrder` (binarytree.go lines 104-126) with the
inner descent factored out as `descend`.  `acc` accumulates (reversed) the
nodes on which the visitor has been invoked. -/
def inOrderLoop (skips : List (SkipNodeFunc T)) (f : WalkFunc T ε)
    (node : Node T) (stack : Deque (Node T)) (acc : List (Node T)) :
    Option (List (Node T) × Option ε) :=
  if (descend skips node stack).isEmpty then some (acc.reverse, none)
  else
    match hpop : (descend skips node stack).popFront with
    | none => none
    | some (item, rest) =>
      match f item with
      | some e => some ((item :: acc).reverse, some e)
      | none => inOrderLoop skips f item.right rest (item :: acc)
termination_by nsize node + workIn stack.items
decreasing_by
  have hd := workIn_descend skips node stack
  have hitems := Deque.popFront_some hpop
  rw [hitems] at hd
  simp [workIn] at hd
  omega

/-- Go `WalkInOrder` (binarytree.go lines 100-129). -/
def WalkInOrder (skips : List (SkipNodeFunc T)) (f : WalkFunc T ε)
    (n : Node T) : Option (List (Node T) × Option ε) :=
  inOrderLoop skips f n Deque.new []

theorem costList_pushFrontNN (m : Node T) (d : Deque (Node T)) :
    costList (pushFrontNN m d).items ≤ cost m + costList d.items := by
  cases m <;> simp [pushFrontNN, Deque.pushFront, costList, cost, nsize] <;> omega

theorem costList_append (l₁ l₂ : List (Node T)) :
    costList (l₁ ++ l₂) = costList l₁ + costList l₂ := by
  induction l₁ with
  | nil => simp [costList]
  | cons x xs ih => simp [costList, ih]; omega

theorem costList_pushBackNN (m : Node T) (d : Deque (Node T)) :
    costList (pushBackNN m d).items ≤ cost m + costList d.items := by
  cases m <;>
    simp [pushBackNN, Deque.pushBack, costList, costList_append, cost, nsize] <;>
    omega

theorem cost_children (v : T) (l r : Node T) :
    cost l + cost r < cost (.node v l r) := by
  simp [cost, nsize]; omega

/-- Loop of Go `WalkPreOrder` (binarytree.go lines 137-158): pop, apply the
skip handlers, invoke the visitor, then push the right child before the
left one.  `acc` accumulates (reversed) the visited nodes. -/
def preOrderLoop (skips : List (SkipNodeFunc T)) (f : WalkFunc T ε)
    (stack : Deque (Node T)) (acc : List (Node T)) :
    Option (List (Node T) × Option ε) :=
  if stack.isEmpty then some (acc.reverse, none)
  else
    match hpop : stack.popFront with
    | none => none
    | some (node, rest) =>
      if shouldSkipNode skips node then preOrderLoop skips f rest acc
      else
        match f node with
        | some e => some ((node :: acc).reverse, some e)
        | none =>
          preOrderLoop skips f
            (pushFrontNN node.left (pushFrontNN node.right rest)) (node :: acc)
termination_by costList stack.items
decreasing_by
  · have hitems := Deque.popFront_some hpop
    rw [hitems]
    simp [costList, cost]
  · have hitems := Deque.popFront_some hpop
    have h1 := costList_pushFrontNN node.right rest
    have h2 := costList_pushFrontNN node.left (pushFrontNN node.right rest)
    rw [hitems]
    simp [costList]
    cases node with
    | nil => simp [Node.left, Node.right, pushFrontNN, cost, nsize] at h1 h2 ⊢
    | node v l r =>
      have h3 := cost_children v l r
      simp [Node.left, Node.right] at h1 h2 ⊢
      omega

/-- Go `WalkPreOrder` (binarytree.go lines 133-161). -/
def WalkPreOrder (skips : List (SkipNodeFunc T)) (f : WalkFunc T ε)
    (n : Node T) : Option (List (Node T) × Option ε) :=
  preOrderLoop skips f (Deque.new.pushFront n) []

/-- First loop of Go `WalkPostOrder` (binarytree.go lines 170-188): a
pre-order-like traversal pushing the left child before the right one, which
prepends nodes to `result` so that draining `result` from the front
afterwards yields the post-order sequence. -/
def postOrderCollect (skips : List (SkipNodeFunc T))
    (stack result : Deque (Node T)) : Option (Deque (Node T)) :=
  if stack.isEmpty then some result
  else
    match hpop : stack.popFront with
    | none => none
    | some (node, rest) =>
      if shouldSkipNode skips node then postOrderCollect skips rest result
      else
        postOrderCollect skips
          (pushFrontNN node.right (pushFrontNN node.left rest))
          (result.pushFront node)
termination_by costList stack.items
decreasing_by
  · have hitems := Deque.popFront_some hpop
    rw [hitems]
    simp [costList, cost]
  · have hitems := Deque.popFront_some hpop
    have h1 := costList_pushFrontNN node.left rest
    have h2 := costList_pushFrontNN node.right (pushFrontNN node.left rest)
    rw [hitems]
    simp [costList]
    cases node with
    | nil => simp [Node.left, Node.right, pushFrontNN, cost, nsize] at h1 h2 ⊢
    | node v l r =>
      have h3 := cost_children v l r
      simp [Node.left, Node.right] at h1 h2 ⊢
      omega

/-- Second loop of Go `WalkPostOrder` (binarytree.go lines 190-198): drain
the `result` deque from the front and invoke the visitor.  In the Go code a
pop from an empty deque here makes the walk return `ErrEmptyQueue` itself
(rather than panicking); both abnormal exits are modelled by `none`. -/
def postOrderVisit (f : WalkFunc T ε) (result : Deque (Node T))
    (acc : List (Node T)) : Option (List (Node T) × Option ε) :=
  if result.isEmpty then some (acc.reverse, none)
  else
    match hpop : result.popFront with
    | none => none
    | some (node, rest) =>
      match f node with
      | some e => some ((node :: acc).reverse, some e)
      | none => postOrderVisit f rest (node :: acc)
termination_by result.items.length
decreasing_by
  have hitems := Deque.popFront_some hpop
  rw [hitems]
  simp

/-- Go `WalkPostOrder` (binarytree.go lines 165-201). -/
def WalkPostOrder (skips : List (SkipNodeFunc T)) (f : WalkFunc T ε)
    (n : Node T) : Option (List (Node T) × Option ε) :=
  match postOrderCollect skips (Deque.new.pushFront n) Deque.new with
  | none => none
  | some result => postOrderVisit f result []

/-- Loop of Go `WalkLevelOrder` (binarytree.go lines 209-229): pop the
front of the FIFO queue, apply the skip handlers, invoke the visitor, then
enqueue the left child and then the right child at the back. -/
def levelOrderLoop (skips : List (SkipNodeFunc T)) (f : WalkFunc T ε)
    (queue : Deque (Node T)) (acc : List (Node T)) :
    Option (List (Node T) × Option ε) :=
  if queue.isEmpty then some (acc.reverse, none)
  else
    match hpop : queue.popFront with
    | none => none
    | some (node, rest) =>
      if shouldSkipNode skips node then levelOrderLoop skips f rest acc
      else
        match f node with
        | some e => some ((node :: acc).reverse, some e)
        | none =>
          levelOrderLoop skips f
            (pushBackNN node.right (pushBackNN node.left rest)) (node :: acc)
termination_by costList queue.items
decreasing_by
  · have hitems := Deque.popFront_some hpop
    rw [hitems]
    simp [costList, cost]
  · have hitems := Deque.popFront_some hpop
    have h1 := costList_pushBackNN node.left rest
    have h2 := costList_pushBackNN node.right (pushBackNN node.left rest)
    rw [hitems]
    simp [costList]
    cases node with
    | nil => simp [Node.left, Node.right, pushBackNN, cost, nsize] at h1 h2 ⊢
    | node v l r =>
      have h3 := cost_children v l r
      simp [Node.left, Node.right] at h1 h2 ⊢
      omega

/-- Go `WalkLevelOrder` (binarytree.go lines 205-232). -/
def WalkLevelOrder (skips : List (SkipNodeFunc T)) (f : WalkFunc T ε)
    (n : Node T) : Option (List (Node T) × Option ε) :=
  levelOrderLoop skips f (Deque.new.pushBack n) []

/-- Go `Size` (binarytree.go lines 235-244): runs `WalkInOrder` with a
visitor that increments a counter and never returns an error, so the
counter ends up equal to the number of visitor invocations.  `none` models
the walk panicking before returning. -/
def Size (skips : List (SkipNodeFunc T)) (n : Node T) : Option Nat :=
  (WalkInOrder skips (fun _ => (none : Option Unit)) n).map
    (fun res => res.1.length)

/-- One entry of the `Height` worklist, Go `nodeHeight[T]`
(binarytree.go lines 246-249). -/
abbrev NodeHeight (T : Type u) := Node T × Nat

/-- Termination-measure weight of a `Height` worklist. -/
def costListH : List (NodeHeight T) → Nat
  | [] => 0
  | p :: rest => cost p.1 + costListH rest

/-- Push a `(node, height)` pair on the front when the node is not `nil`,
modelling `if item.node.X != nil { ... stack.PushFront(...) }`
(binarytree.go lines 271-284). -/
def pushHFront (m : Node T) (d : Nat) (s : Deque (NodeHeight T)) :
    Deque (NodeHeight T) :=
  match m with
  | .nil => s
  | .node v l r => s.pushFront (.node v l r, d)

/-- Loop of Go `Height` (binarytree.go lines 261-285): pop a
`(node, height)` pair, raise the running maximum, and push the children
with depth one greater — right first, then left. -/
def heightLoop (stack : Deque (NodeHeight T)) (maxH : Nat) : Option Nat :=
  if stack.isEmpty then some maxH
  else
    match hpop : stack.popFront with
    | none => none
    | some (item, rest) =>
      heightLoop
        (pushHFront item.1.left (item.2 + 1)
          (pushHFront item.1.right (item.2 + 1) rest))
        (if item.2 > maxH then item.2 else maxH)
termination_by costListH stack.items
decreasing_by
  have hitems := Deque.popFront_some hpop
  rw [hitems]
  simp [costListH]
  cases item with
  | mk m d =>
    cases m with
    | nil => simp [Node.left, Node.right, pushHFront, cost, nsize]
    | node v l r =>
      cases l <;> cases r <;>
        simp [Node.left, Node.right, pushHFront, Deque.pushFront, costListH,
          cost, nsize] <;>
        omega

/-- Go `Height` (binarytree.go lines 252-288): maximum depth reached by a
stack-driven traversal seeded with `(n, 0)`. -/
def Height (n : Node T) : Option Nat :=
  heightLoop (Deque.new.pushFront (n, 0)) 0

/-- Go `FindNode` (binarytree.go lines 316-339): pre-order search for the
first node satisfying `predicate`.  The Go result pair `(*Node[T], bool)`
is modelled by the inner `Option (Node T)` (`some m` = `(m, true)`,
`none` = `(nil, false)`); the outer `Option` models panicking.  The
receiver's `skipNodeFuncs` field (`skips`) is taken as an argument for
uniformity with the walks, but the Go method body never consults it:
`FindNode` contains no `shouldSkipNode` call. -/
def FindNode (skips : List (SkipNodeFunc T)) (predicate : FindFunc T)
    (n : Node T) : Option (Option (Node T)) :=
  findLoopGo predicate (Deque.new.pushFront n)
where
  /-- Loop of Go `FindNode` (lines 320-336): pop, test the predicate,
  push the right child and then the left child. -/
  findLoopGo (predicate : FindFunc T) (stack : Deque (Node T)) :
      Option (Option (Node T)) :=
    if stack.isEmpty then some none
    else
      match hpop : stack.popFront with
      | none => none
      | some (node, rest) =>
        if predicate node then some (some node)
        else findLoopGo predicate
          (pushFrontNN node.left (pushFrontNN node.right rest))
  termination_by costList stack.items
  decreasing_by
    have hitems := Deque.popFront_some hpop
    have h1 := costList_pushFrontNN node.right rest
    have h2 := costList_pushFrontNN node.left (pushFrontNN node.right rest)
    rw [hitems]
    simp [costList]
    cases node with
    | nil => simp [Node.left, Node.right, pushFrontNN, cost, nsize] at h1 h2 ⊢
    | node v l r =>
      have h3 := cost_children v l r
      simp [Node.left, Node.right] at h1 h2 ⊢
      omega

/-- Loop of Go `IsFull` (binarytree.go lines 347-363): skip leaves, return
`false` on a node with exactly one child, otherwise push both children. -/
def isFullLoop (stack : Deque (Node T)) : Option Bool :=
  if stack.isEmpty then some true
  else
    match hpop : stack.popFront with
    | none => none
    | some (node, rest) =>
      if IsLeaf node then isFullLoop rest
      else if ¬(node.left.isNil = false ∧ node.right.isNil = false) then
        some false
      else
        isFullLoop ((rest.pushFront node.right).pushFront node.left)
termination_by costList stack.items
decreasing_by
  · have hitems := Deque.popFront_some hpop
    rw [hitems]
    simp [costList, cost]
  · have hitems := Deque.popFront_some hpop
    rw [hitems]
    rename_i hleaf hboth
    rw [not_not] at hboth
    cases node with
    | nil => simp [Node.left, Node.right, Node.isNil] at hboth
    | node v l r =>
      have h3 := cost_children v l r
      simp [Node.left, Node.right, Deque.pushFront, costList] at *
      omega

/-- Go `IsFull` (binarytree.go lines 343-366). -/
def IsFull (n : Node T) : Option Bool :=
  isFullLoop (Deque.new.pushFront n)

/-- Loop of Go `IsDegenerate` (binarytree.go lines 373-392): skip leaves,
return `false` on a node with two children, otherwise push the present
child (left first, then right, both on the front). -/
def isDegenerateLoop (stack : Deque (Node T)) : Option Bool :=
  if stack.isEmpty then some true
  else
    match hpop : stack.popFront with
    | none => none
    | some (node, rest) =>
      if IsLeaf node then isDegenerateLoop rest
      else if node.left.isNil = false ∧ node.right.isNil = false then
        some false
      else
        isDegenerateLoop (pushFrontNN node.right (pushFrontNN node.left rest))
termination_by costList stack.items
decreasing_by
  · have hitems := Deque.popFront_some hpop
    rw [hitems]
    simp [costList, cost]
  · have hitems := Deque.popFront_some hpop
    have h1 := costList_pushFrontNN node.left rest
    have h2 := costList_pushFrontNN node.right (pushFrontNN node.left rest)
    rw [hitems]
    simp [costList]
    cases node with
    | nil => simp [Node.left, Node.right, pushFrontNN, cost, nsize] at h1 h2 ⊢
    | node v l r =>
      have h3 := cost_children v l r
      simp [Node.left, Node.right] at h1 h2 ⊢
      omega

/-- Go `IsDegenerate` (binarytree.go lines 369-395). -/
def IsDegenerate (n : Node T) : Option Bool :=
  isDegenerateLoop (Deque.new.pushFront n)

/-- One child-measuring block of Go `IsBalanced`
(binarytree.go lines 414-418 and 420-424): the height variable starts at
`-1`; when the child pointer is not `nil` its `Height` is computed and the
child is pushed on the front of the stack.  `none` propagates a panic from
`Height`. -/
def childHeightPush (child : Node T) (stack : Deque (Node T)) :
    Option (Int × Deque (Node T)) :=
  match child with
  | .nil => some (-1, stack)
  | .node v l r =>
    match Height (Node.node v l r) with
    | none => none
    | some h => some ((h : Int), stack.pushFront (.node v l r))

theorem costList_childHeightPush {child : Node T} {stack : Deque (Node T)}
    {h : Int} {s' : Deque (Node T)}
    (hc : childHeightPush child stack = some (h, s')) :
    costList s'.items ≤ costList stack.items + 2 * nsize child + min (nsize child) 1 := by
  cases child with
  | nil =>
    simp only [childHeightPush, Option.some.injEq, Prod.mk.injEq] at hc
    rw [← hc.2]
    simp [nsize]
  | node v l r =>
    rcases hH : Height (Node.node v l r) with _ | hv
    · simp [childHeightPush, hH] at hc
    · simp only [childHeightPush, hH, Option.some.injEq, Prod.mk.injEq] at hc
      rw [← hc.2]
      simp [Deque.pushFront, costList, cost, nsize]
      omega

/-- Loop of Go `IsBalanced` (binarytree.go lines 408-436): pop a node,
measure both child heights (pushing present children), and return `false`
as soon as the two (+1-adjusted) heights differ by more than one. -/
def isBalancedLoop (stack : Deque (Node T)) : Option Bool :=
  if stack.isEmpty then some true
  else
    match hpop : stack.popFront with
    | none => none
    | some (node, rest) =>
      match hl : childHeightPush node.left rest with
      | none => none
      | some (lh, s1) =>
        match hr : childHeightPush node.right s1 with
        | none => none
        | some (rh, s2) =>
          if ((lh + 1) - (rh + 1)).natAbs > 1 then some false
          else isBalancedLoop s2
termination_by costList stack.items
decreasing_by
  have hitems := Deque.popFront_some hpop
  have h1 := costList_childHeightPush hl
  have h2 := costList_childHeightPush hr
  rw [hitems]
  simp [costList]
  cases node with
  | nil => simp [Node.left, Node.right, cost, nsize] at h1 h2 ⊢; omega
  | node v l r =>
    simp [Node.left, Node.right, cost, nsize] at h1 h2 ⊢
    omega

/-- Go `IsBalanced` (binarytree.go lines 400-439): immediately `true` for a
node with no children, otherwise the stack-driven check. -/
def IsBalanced (n : Node T) : Option Bool :=
  if n.left.isNil && n.right.isNil then some true
  else isBalancedLoop (Deque.new.pushFront n)

/-! ### Specification-level definitions

Recursive descriptions of the quantities the iterative loops compute.
They are related to the loops by the equivalence lemmas below. -/

/-- Concatenation of the images of a list under a list-valued function. -/
def catMap (g : α → List β) : List α → List β
  | [] => []
  | x :: xs => g x ++ catMap g xs

/-- All nodes of a subtree in pre-order (node, left subtree, right
subtree); `[]` for the `nil` pointer. -/
def treeNodes : Node T → List (Node T)
  | .nil => []
  | .node v l r => .node v l r :: (treeNodes l ++ treeNodes r)

/-- In-order visiting sequence under a skip-handler list: a node whose skip
handler fires contributes nothing (its whole subtree is pruned). -/
def inList (skips : List (SkipNodeFunc T)) : Node T → List (Node T)
  | .nil => []
  | .node v l r =>
    if shouldSkipNode skips (.node v l r) then []
    else inList skips l ++ .node v l r :: inList skips r

/-- Pre-order visiting sequence under a skip-handler list. -/
def preList (skips : List (SkipNodeFunc T)) : Node T → List (Node T)
  | .nil => []
  | .node v l r =>
    if shouldSkipNode skips (.node v l r) then []
    else .node v l r :: (preList skips l ++ preList skips r)

/-- Order in which the first `WalkPostOrder` loop prepends nodes to its
`result` deque: node, then right subtree, then left subtree. -/
def nrlList (skips : List (SkipNodeFunc T)) : Node T → List (Node T)
  | .nil => []
  | .node v l r =>
    if shouldSkipNode skips (.node v l r) then []
    else .node v l r :: (nrlList skips r ++ nrlList skips l)

/-- Post-order visiting sequence under a skip-handler list. -/
def postList (skips : List (SkipNodeFunc T)) : Node T → List (Node T)
  | .nil => []
  | .node v l r =>
    if shouldSkipNode skips (.node v l r) then []
    else postList skips l ++ postList skips r ++ [.node v l r]

/-- The children of a node that a level-order walk appends to the back of
its queue (left first, then right, `nil` children omitted). -/
def childrenBack (n : Node T) : List (Node T) :=
  (match n.left with
   | .nil => []
   | .node v l r => [Node.node v l r]) ++
  (match n.right with
   | .nil => []
   | .node v l r => [Node.node v l r])

/-- Level-order visiting sequence of a whole queue of pending nodes under a
skip-handler list. -/
def levelList (skips : List (SkipNodeFunc T)) : List (Node T) → List (Node T)
  | [] => []
  | q :: rest =>
    if shouldSkipNode skips q then levelList skips rest
    else q :: levelList skips (rest ++ childrenBack q)
termination_by queue => costList queue
decreasing_by
  · simp [costList, cost]
  · simp [costList_append, costList]
    rename Node T => q
    cases q with
    | nil => simp [childrenBack, Node.left, Node.right, costList, cost, nsize]
    | node v l r =>
      have h3 := cost_children v l r
      cases l <;> cases r <;>
        simp [childrenBack, Node.left, Node.right, costList, costList_append,
          cost, nsize] at h3 ⊢ <;>
        omega

/-- Result of invoking a visitor on a planned visiting sequence: the nodes
actually visited (the plan up to and including the first node on which the
visitor returns an error) together with the walk's return value. -/
def visitSeq (f : WalkFunc T ε) : List (Node T) → List (Node T) × Option ε
  | [] => ([], none)
  | m :: rest =>
    match f m with
    | some e => ([m], some e)
    | none =>
      let res := visitSeq f rest
      (m :: res.1, res.2)

/-- Values stored in a list of nodes (`nil` entries dropped). -/
def values : List (Node T) → List T
  | [] => []
  | .nil :: rest => values rest
  | .node v _ _ :: rest => v :: values rest

/-- Height of a nullable subtree pointer with the `-1` convention for the
`nil` pointer: a leaf has height `0`, an inner node `1 +` the maximum of
its children's heights. -/
def iheight : Node T → Int
  | .nil => -1
  | .node _ l r => 1 + max (iheight l) (iheight r)

/-- `iheight` as a natural number (`nil` clamps to `0`). -/
def natHeight (n : Node T) : Nat := (iheight n).toNat

/-- Recursive balance check: every node's children differ in `iheight` by
at most one. -/
def balancedB : Node T → Bool
  | .nil => true
  | .node _ l r =>
    if (iheight l - iheight r).natAbs ≤ 1 then balancedB l && balancedB r
    else false

/-- Nodes reachable from a root without passing through a node on which a
skip handler fires: exactly the candidates a walk may visit. -/
def visible (skips : List (SkipNodeFunc T)) : Node T → List (Node T)
  | .nil => []
  | .node v l r =>
    if shouldSkipNode skips (.node v l r) then []
    else .node v l r :: (visible skips l ++ visible skips r)

/-! ### Equivalence of the iterative loops with the recursive descriptions -/

theorem popFront_none {d : Deque α} (h : d.popFront = none) : d.items = [] := by
  cases d with
  | mk items =>
    cases items with
    | nil => rfl
    | cons x xs => simp [Deque.popFront] at h

theorem visitSeq_all_none {f : WalkFunc T ε} :
    ∀ {L : List (Node T)}, (∀ m ∈ L, f m = none) → visitSeq f L = (L, none) := by
  intro L
  induction L with
  | nil => intro _; rfl
  | cons m rest ih =>
    intro h
    have hm : f m = none := h m (by simp)
    have hrest : ∀ x ∈ rest, f x = none := fun x hx => h x (by simp [hx])
    simp [visitSeq, hm, ih hrest]

theorem visitSeq_cases (f : WalkFunc T ε) :
    ∀ (L : List (Node T)),
      ((visitSeq f L).2 = none ∧ (visitSeq f L).1 = L ∧ ∀ m ∈ L, f m = none) ∨
      (∃ vs m e, (visitSeq f L).1 = vs ++ [m] ∧ f m = some e ∧
        (visitSeq f L).2 = some e ∧ ∀ x ∈ vs, f x = none) := by
  intro L
  induction L with
  | nil => left; simp [visitSeq]
  | cons m rest ih =>
    rcases hm : f m with _ | e
    · rcases ih with ⟨h2, h1, hall⟩ | ⟨vs, m0, e0, h1, hm0, h2, hall⟩
      · left
        refine ⟨by simp [visitSeq, hm, h2], by simp [visitSeq, hm, h1], ?_⟩
        intro x hx
        rcases List.mem_cons.mp hx with hx | hx
        · rw [hx]; exact hm
        · exact hall x hx
      · right
        refine ⟨m :: vs, m0, e0, by simp [visitSeq, hm, h1], hm0,
          by simp [visitSeq, hm, h2], ?_⟩
        intro x hx
        rcases List.mem_cons.mp hx with hx | hx
        · rw [hx]; exact hm
        · exact hall x hx
    · right
      exact ⟨[], m, e, by simp [visitSeq, hm], hm, by simp [visitSeq, hm],
        by simp⟩

theorem visitSeq_mem {f : WalkFunc T ε} :
    ∀ {L : List (Node T)} {m : Node T}, m ∈ (visitSeq f L).1 → m ∈ L := by
  intro L
  induction L with
  | nil => intro m h; simp [visitSeq] at h
  | cons x rest ih =>
    intro m h
    rcases hx : f x with _ | e <;> simp [visitSeq, hx] at h
    · rcases h with h | h
      · simp [h]
      · exact List.mem_cons_of_mem _ (ih h)
    · simp [h]

/-- The pending in-order work of a worklist: each stacked node is still to
be visited and then its right subtree walked. -/
def pendIn (skips : List (SkipNodeFunc T)) : List (Node T) → List (Node T)
  | [] => []
  | p :: rest => p :: inList skips p.right ++ pendIn skips rest

theorem pendIn_descend (skips : List (SkipNodeFunc T)) :
    ∀ (n : Node T) (stack : Deque (Node T)),
      pendIn skips (descend skips n stack).items =
        inList skips n ++ pendIn skips stack.items := by
  intro n
  induction n with
  | nil => intro stack; simp [descend, inList]
  | node v l r ihl ihr =>
    intro stack
    by_cases h : shouldSkipNode skips (.node v l r) = true
    · simp [descend, h, inList]
    · rw [Bool.not_eq_true] at h
      have step := ihl (stack.pushFront (.node v l r))
      simp only [descend, h, Bool.false_eq_true, if_false, inList]
      rw [step]
      simp [Deque.pushFront, pendIn, Node.right]

theorem inOrderLoop_eq (skips : List (SkipNodeFunc T)) (f : WalkFunc T ε) :
    ∀ (node : Node T) (stack : Deque (Node T)) (acc : List (Node T)),
      inOrderLoop skips f node stack acc =
        some (acc.reverse ++
            (visitSeq f (inList skips node ++ pendIn skips stack.items)).1,
          (visitSeq f (inList skips node ++ pendIn skips stack.items)).2) := by
  intro node stack acc
  induction node, stack, acc using inOrderLoop.induct skips f with
  | case1 node stack acc hempty =>
    have hitems := Deque.isEmpty_true_iff.mp hempty
    have hpend := pendIn_descend skips node stack
    rw [hitems] at hpend
    simp only [pendIn] at hpend
    rw [inOrderLoop, if_pos hempty]
    rw [← hpend]
    simp [visitSeq]
  | case2 node stack acc hempty hpop =>
    have hitems := popFront_none hpop
    rw [Deque.isEmpty_true_iff.symm] at hitems
    simp [hitems] at hempty
  | case3 node stack acc hempty item rest hpop e hf =>
    have hpend := pendIn_descend skips node stack
    rw [Deque.popFront_some hpop] at hpend
    rw [inOrderLoop, if_neg hempty]
    split
    next heq => simp [hpop] at heq
    next a b heq =>
      rw [hpop] at heq
      simp only [Option.some.injEq, Prod.mk.injEq] at heq
      obtain ⟨h1, h2⟩ := heq
      subst h1
      subst h2
      rw [← hpend]
      simp [pendIn, visitSeq, hf]
  | case4 node stack acc hempty item rest hpop hf ih =>
    have hpend := pendIn_descend skips node stack
    rw [Deque.popFront_some hpop] at hpend
    rw [inOrderLoop, if_neg hempty]
    split
    next heq => simp [hpop] at heq
    next a b heq =>
      rw [hpop] at heq
      simp only [Option.some.injEq, Prod.mk.injEq] at heq
      obtain ⟨h1, h2⟩ := heq
      subst h1
      subst h2
      rw [← hpend]
      simp only [hf]
      rw [ih]
      simp [pendIn, visitSeq, hf]

theorem WalkInOrder_eq (skips : List (SkipNodeFunc T)) (f : WalkFunc T ε)
    (n : Node T) :
    WalkInOrder skips f n =
      some ((visitSeq f (inList skips n)).1, (visitSeq f (inList skips n)).2) := by
  rw [WalkInOrder, inOrderLoop_eq]
  simp [Deque.new, pendIn, catMap]

theorem catMap_append (g : α → List β) (l₁ l₂ : List α) :
    catMap g (l₁ ++ l₂) = catMap g l₁ ++ catMap g l₂ := by
  induction l₁ with
  | nil => simp [catMap]
  | cons x xs ih => simp [catMap, ih]

theorem catMap_pushFrontNN (g : Node T → List β) (hg : g .nil = [])
    (m : Node T) (d : Deque (Node T)) :
    catMap g (pushFrontNN m d).items = g m ++ catMap g d.items := by
  cases m <;> simp [pushFrontNN, Deque.pushFront, catMap, hg]

theorem catMap_pushBackNN (g : Node T → List β) (hg : g .nil = [])
    (m : Node T) (d : Deque (Node T)) :
    catMap g (pushBackNN m d).items = catMap g d.items ++ g m := by
  cases m <;> simp [pushBackNN, Deque.pushBack, catMap, catMap_append, hg]

theorem pushFrontNN_nonnil {m : Node T} {d : Deque (Node T)}
    (hd : ∀ x ∈ d.items, x ≠ Node.nil) :
    ∀ x ∈ (pushFrontNN m d).items, x ≠ Node.nil := by
  cases m with
  | nil => exact hd
  | node v l r =>
    intro x hx
    simp [pushFrontNN, Deque.pushFront] at hx
    rcases hx with hx | hx
    · rw [hx]; simp
    · exact hd x hx

theorem pushBackNN_nonnil {m : Node T} {d : Deque (Node T)}
    (hd : ∀ x ∈ d.items, x ≠ Node.nil) :
    ∀ x ∈ (pushBackNN m d).items, x ≠ Node.nil := by
  cases m with
  | nil => exact hd
  | node v l r =>
    intro x hx
    simp [pushBackNN, Deque.pushBack] at hx
    rcases hx with hx | hx
    · exact hd x hx
    · rw [hx]; simp

theorem preList_nonskip {skips : List (SkipNodeFunc T)} {v : T} {l r : Node T}
    (h : shouldSkipNode skips (.node v l r) = false) :
    preList skips (.node v l r) =
      .node v l r :: (preList skips l ++ preList skips r) := by
  simp [preList, h]

theorem preOrderLoop_eq (skips : List (SkipNodeFunc T)) (f : WalkFunc T ε) :
    ∀ (stack : Deque (Node T)) (acc : List (Node T)),
      (∀ x ∈ stack.items, x ≠ Node.nil) →
      preOrderLoop skips f stack acc =
        some (acc.reverse ++
            (visitSeq f (catMap (preList skips) stack.items)).1,
          (visitSeq f (catMap (preList skips) stack.items)).2) := by
  intro stack acc
  induction stack, acc using preOrderLoop.induct skips f with
  | case1 stack acc hempty =>
    intro _
    have hitems := Deque.isEmpty_true_iff.mp hempty
    rw [preOrderLoop, if_pos hempty, hitems]
    simp [catMap, visitSeq]
  | case2 stack acc hempty hpop =>
    intro _
    have hitems := popFront_none hpop
    rw [Deque.isEmpty_true_iff.symm] at hitems
    simp [hitems] at hempty
  | case3 stack acc hempty node rest hpop hskip ih =>
    intro hnn
    have hitems := Deque.popFront_some hpop
    rw [preOrderLoop, if_neg hempty]
    split
    next heq => simp [hpop] at heq
    next a b heq =>
      rw [hpop] at heq
      simp only [Option.some.injEq, Prod.mk.injEq] at heq
      obtain ⟨h1, h2⟩ := heq
      subst h1
      subst h2
      rw [if_pos hskip]
      have hrest : ∀ x ∈ rest.items, x ≠ Node.nil := by
        intro x hx
        exact hnn x (by rw [hitems]; exact List.mem_cons_of_mem _ hx)
      rw [ih hrest, hitems]
      have hnode : preList skips node = [] := by
        cases node with
        | nil => rfl
        | node v l r => simp [preList, hskip]
      simp [catMap, hnode]
  | case4 stack acc hempty node rest hpop hskip e hf =>
    intro hnn
    have hitems := Deque.popFront_some hpop
    rw [preOrderLoop, if_neg hempty]
    split
    next heq => simp [hpop] at heq
    next a b heq =>
      rw [hpop] at heq
      simp only [Option.some.injEq, Prod.mk.injEq] at heq
      obtain ⟨h1, h2⟩ := heq
      subst h1
      subst h2
      rw [if_neg (by simp [hskip])]
      have hnode : node ≠ Node.nil := hnn node (by rw [hitems]; simp)
      rcases node with _ | ⟨v, l, r⟩
      · exact absurd rfl hnode
      · rw [hitems]
        simp only [catMap, preList_nonskip (Bool.not_eq_true _ ▸ hskip)]
        simp [visitSeq, hf]
  | case5 stack acc hempty node rest hpop hskip hf ih =>
    intro hnn
    have hitems := Deque.popFront_some hpop
    rw [preOrderLoop, if_neg hempty]
    split
    next heq => simp [hpop] at heq
    next a b heq =>
      rw [hpop] at heq
      simp only [Option.some.injEq, Prod.mk.injEq] at heq
      obtain ⟨h1, h2⟩ := heq
      subst h1
      subst h2
      rw [if_neg (by simp [hskip])]
      have hnode : node ≠ Node.nil := hnn node (by rw [hitems]; simp)
      have hrest : ∀ x ∈ rest.items, x ≠ Node.nil := by
        intro x hx
        exact hnn x (by rw [hitems]; exact List.mem_cons_of_mem _ hx)
      have hnew : ∀ x ∈ (pushFrontNN node.left (pushFrontNN node.right rest)).items,
          x ≠ Node.nil :=
        pushFrontNN_nonnil (pushFrontNN_nonnil hrest)
      simp only [hf]
      rw [ih hnew, hitems]
      rw [catMap_pushFrontNN _ rfl, catMap_pushFrontNN _ rfl]
      rcases node with _ | ⟨v, l, r⟩
      · exact absurd rfl hnode
      · simp only [catMap, preList_nonskip (Bool.not_eq_true _ ▸ hskip),
          Node.left, Node.right]
        simp [visitSeq, hf]

theorem WalkPreOrder_eq (skips : List (SkipNodeFunc T)) (f : WalkFunc T ε)
    (n : Node T) (hn : n ≠ Node.nil) :
    WalkPreOrder skips f n =
      some ((visitSeq f (preList skips n)).1, (visitSeq f (preList skips n)).2) := by
  rw [WalkPreOrder, preOrderLoop_eq]
  · simp [Deque.new, Deque.pushFront, catMap]
  · intro x hx
    simp [Deque.new, Deque.pushFront] at hx
    rw [hx]
    exact hn

theorem nrlList_reverse (skips : List (SkipNodeFunc T)) :
    ∀ (n : Node T), (nrlList skips n).reverse = postList skips n := by
  intro n
  induction n with
  | nil => rfl
  | node v l r ihl ihr =>
    by_cases h : shouldSkipNode skips (.node v l r) = true
    · simp [nrlList, postList, h]
    · rw [Bool.not_eq_true] at h
      simp [nrlList, postList, h, ihl, ihr]

theorem postOrderCollect_eq (skips : List (SkipNodeFunc T)) :
    ∀ (stack result : Deque (Node T)),
      (∀ x ∈ stack.items, x ≠ Node.nil) →
      postOrderCollect skips stack result =
        some ⟨(catMap (nrlList skips) stack.items).reverse ++ result.items⟩ := by
  intro stack result
  induction stack, result using postOrderCollect.induct skips with
  | case1 stack result hempty =>
    intro _
    have hitems := Deque.isEmpty_true_iff.mp hempty
    rw [postOrderCollect, if_pos hempty, hitems]
    simp [catMap]
  | case2 stack result hempty hpop =>
    intro _
    have hitems := popFront_none hpop
    rw [Deque.isEmpty_true_iff.symm] at hitems
    simp [hitems] at hempty
  | case3 stack result hempty node rest hpop hskip ih =>
    intro hnn
    have hitems := Deque.popFront_some hpop
    rw [postOrderCollect, if_neg hempty]
    split
    next heq => simp [hpop] at heq
    next a b heq =>
      rw [hpop] at heq
      simp only [Option.some.injEq, Prod.mk.injEq] at heq
      obtain ⟨h1, h2⟩ := heq
      subst h1
      subst h2
      rw [if_pos hskip]
      have hrest : ∀ x ∈ rest.items, x ≠ Node.nil := by
        intro x hx
        exact hnn x (by rw [hitems]; exact List.mem_cons_of_mem _ hx)
      rw [ih hrest, hitems]
      have hnode : nrlList skips node = [] := by
        cases node with
        | nil => rfl
        | node v l r => simp [nrlList, hskip]
      simp [catMap, hnode]
  | case4 stack result hempty node rest hpop hskip ih =>
    intro hnn
    have hitems := Deque.popFront_some hpop
    rw [postOrderCollect, if_neg hempty]
    split
    next heq => simp [hpop] at heq
    next a b heq =>
      rw [hpop] at heq
      simp only [Option.some.injEq, Prod.mk.injEq] at heq
      obtain ⟨h1, h2⟩ := heq
      subst h1
      subst h2
      rw [if_neg (by simp [hskip])]
      have hnode : node ≠ Node.nil := hnn node (by rw [hitems]; simp)
      have hrest : ∀ x ∈ rest.items, x ≠ Node.nil := by
        intro x hx
        exact hnn x (by rw [hitems]; exact List.mem_cons_of_mem _ hx)
      have hnew : ∀ x ∈ (pushFrontNN node.right (pushFrontNN node.left rest)).items,
          x ≠ Node.nil :=
        pushFrontNN_nonnil (pushFrontNN_nonnil hrest)
      rw [ih hnew, hitems]
      rw [catMap_pushFrontNN _ rfl, catMap_pushFrontNN _ rfl]
      rcases node with _ | ⟨v, l, r⟩
      · exact absurd rfl hnode
      · simp only [catMap, Node.left, Node.right, Deque.pushFront]
        have hunfold : nrlList skips (.node v l r) =
            .node v l r :: (nrlList skips r ++ nrlList skips l) := by
          simp [nrlList, Bool.not_eq_true _ ▸ hskip]
        rw [hunfold]
        simp

theorem postOrderVisit_eq (f : WalkFunc T ε) :
    ∀ (result : Deque (Node T)) (acc : List (Node T)),
      postOrderVisit f result acc =
        some (acc.reverse ++ (visitSeq f result.items).1,
          (visitSeq f result.items).2) := by
  intro result acc
  induction result, acc using postOrderVisit.induct f with
  | case1 result acc hempty =>
    have hitems := Deque.isEmpty_true_iff.mp hempty
    rw [postOrderVisit, if_pos hempty, hitems]
    simp [visitSeq]
  | case2 result acc hempty hpop =>
    have hitems := popFront_none hpop
    rw [Deque.isEmpty_true_iff.symm] at hitems
    simp [hitems] at hempty
  | case3 result acc hempty node rest hpop e hf =>
    have hitems := Deque.popFront_some hpop
    rw [postOrderVisit, if_neg hempty]
    split
    next heq => simp [hpop] at heq
    next a b heq =>
      rw [hpop] at heq
      simp only [Option.some.injEq, Prod.mk.injEq] at heq
      obtain ⟨h1, h2⟩ := heq
      subst h1
      subst h2
      rw [hitems]
      simp [visitSeq, hf]
  | case4 result acc hempty node rest hpop hf ih =>
    have hitems := Deque.popFront_some hpop
    rw [postOrderVisit, if_neg hempty]
    split
    next heq => simp [hpop] at heq
    next a b heq =>
      rw [hpop] at heq
      simp only [Option.some.injEq, Prod.mk.injEq] at heq
      obtain ⟨h1, h2⟩ := heq
      subst h1
      subst h2
      rw [ih, hitems]
      simp [visitSeq, hf]

theorem WalkPostOrder_eq (skips : List (SkipNodeFunc T)) (f : WalkFunc T ε)
    (n : Node T) (hn : n ≠ Node.nil) :
    WalkPostOrder skips f n =
      some ((visitSeq f (postList skips n)).1, (visitSeq f (postList skips n)).2) := by
  rw [WalkPostOrder]
  rw [postOrderCollect_eq skips (Deque.new.pushFront n) Deque.new]
  · simp only [Deque.new, Deque.pushFront, catMap, List.append_nil]
    rw [postOrderVisit_eq]
    simp [nrlList_reverse]
  · intro x hx
    simp [Deque.new, Deque.pushFront] at hx
    rw [hx]
    exact hn

theorem pushBackNN_childrenBack (n : Node T) (rest : Deque (Node T)) :
    (pushBackNN n.right (pushBackNN n.left rest)).items =
      rest.items ++ childrenBack n := by
  cases n with
  | nil => simp [Node.left, Node.right, pushBackNN, childrenBack]
  | node v l r =>
    cases l <;> cases r <;>
      simp [Node.left, Node.right, pushBackNN, Deque.pushBack, childrenBack]

theorem levelOrderLoop_eq (skips : List (SkipNodeFunc T)) (f : WalkFunc T ε) :
    ∀ (queue : Deque (Node T)) (acc : List (Node T)),
      (∀ x ∈ queue.items, x ≠ Node.nil) →
      levelOrderLoop skips f queue acc =
        some (acc.reverse ++ (visitSeq f (levelList skips queue.items)).1,
          (visitSeq f (levelList skips queue.items)).2) := by
  intro queue acc
  induction queue, acc using levelOrderLoop.induct skips f with
  | case1 queue acc hempty =>
    intro _
    have hitems := Deque.isEmpty_true_iff.mp hempty
    rw [levelOrderLoop, if_pos hempty, hitems]
    simp [levelList, visitSeq]
  | case2 queue acc hempty hpop =>
    intro _
    have hitems := popFront_none hpop
    rw [Deque.isEmpty_true_iff.symm] at hitems
    simp [hitems] at hempty
  | case3 queue acc hempty node rest hpop hskip ih =>
    intro hnn
    have hitems := Deque.popFront_some hpop
    rw [levelOrderLoop, if_neg hempty]
    split
    next heq => simp [hpop] at heq
    next a b heq =>
      rw [hpop] at heq
      simp only [Option.some.injEq, Prod.mk.injEq] at heq
      obtain ⟨h1, h2⟩ := heq
      subst h1
      subst h2
      rw [if_pos hskip]
      have hrest : ∀ x ∈ rest.items, x ≠ Node.nil := by
        intro x hx
        exact hnn x (by rw [hitems]; exact List.mem_cons_of_mem _ hx)
      rw [ih hrest, hitems]
      simp [levelList, hskip]
  | case4 queue acc hempty node rest hpop hskip e hf =>
    intro hnn
    have hitems := Deque.popFront_some hpop
    rw [levelOrderLoop, if_neg hempty]
    split
    next heq => simp [hpop] at heq
    next a b heq =>
      rw [hpop] at heq
      simp only [Option.some.injEq, Prod.mk.injEq] at heq
      obtain ⟨h1, h2⟩ := heq
      subst h1
      subst h2
      rw [if_neg (by simp [hskip])]
      rw [hitems]
      rw [show levelList skips (node :: rest.items) =
        node :: levelList skips (rest.items ++ childrenBack node) by
          simp [levelList, hskip]]
      simp [visitSeq, hf]
  | case5 queue acc hempty node rest hpop hskip hf ih =>
    intro hnn
    have hitems := Deque.popFront_some hpop
    rw [levelOrderLoop, if_neg hempty]
    split
    next heq => simp [hpop] at heq
    next a b heq =>
      rw [hpop] at heq
      simp only [Option.some.injEq, Prod.mk.injEq] at heq
      obtain ⟨h1, h2⟩ := heq
      subst h1
      subst h2
      rw [if_neg (by simp [hskip])]
      have hrest : ∀ x ∈ rest.items, x ≠ Node.nil := by
        intro x hx
        exact hnn x (by rw [hitems]; exact List.mem_cons_of_mem _ hx)
      have hnew : ∀ x ∈ (pushBackNN node.right (pushBackNN node.left rest)).items,
          x ≠ Node.nil :=
        pushBackNN_nonnil (pushBackNN_nonnil hrest)
      simp only [hf]
      rw [ih hnew, hitems]
      rw [pushBackNN_childrenBack]
      rw [show levelList skips (node :: rest.items) =
        node :: levelList skips (rest.items ++ childrenBack node) by
          simp [levelList, hskip]]
      simp [visitSeq, hf]

theorem WalkLevelOrder_eq (skips : List (SkipNodeFunc T)) (f : WalkFunc T ε)
    (n : Node T) (hn : n ≠ Node.nil) :
    WalkLevelOrder skips f n =
      some ((visitSeq f (levelList skips [n])).1,
        (visitSeq f (levelList skips [n])).2) := by
  rw [WalkLevelOrder, levelOrderLoop_eq]
  · simp [Deque.new, Deque.pushBack]
  · intro x hx
    simp [Deque.new, Deque.pushBack] at hx
    rw [hx]
    exact hn

theorem iheight_ge (n : Node T) : -1 ≤ iheight n := by
  induction n with
  | nil => simp [iheight]
  | node v l r ihl ihr =>
    simp only [iheight]
    omega

theorem iheight_nonneg {n : Node T} (hn : n ≠ Node.nil) : 0 ≤ iheight n := by
  cases n with
  | nil => exact absurd rfl hn
  | node v l r =>
    have hl := iheight_ge l
    have hr := iheight_ge r
    simp only [iheight]
    omega

theorem natHeight_nil : natHeight (Node.nil : Node T) = 0 := rfl

theorem natHeight_leaf (v : T) : natHeight (Node.node v .nil .nil) = 0 := rfl

theorem natHeight_left (v : T) (l : Node T) (hl : l ≠ Node.nil) :
    natHeight (Node.node v l .nil) = 1 + natHeight l := by
  have h := iheight_nonneg hl
  simp only [natHeight, iheight]
  omega

theorem natHeight_right (v : T) (r : Node T) (hr : r ≠ Node.nil) :
    natHeight (Node.node v .nil r) = 1 + natHeight r := by
  have h := iheight_nonneg hr
  simp only [natHeight, iheight]
  omega

theorem natHeight_both (v : T) (l r : Node T) (hl : l ≠ Node.nil)
    (hr : r ≠ Node.nil) :
    natHeight (Node.node v l r) = 1 + max (natHeight l) (natHeight r) := by
  have h1 := iheight_nonneg hl
  have h2 := iheight_nonneg hr
  simp only [natHeight, iheight]
  omega

/-- Maximum of a worklist's reachable depths over a running maximum: each
entry `(m, d)` can still raise the maximum to `d + natHeight m`. -/
def hmax : List (NodeHeight T) → Nat → Nat
  | [], m => m
  | p :: rest, m => max (p.2 + natHeight p.1) (hmax rest m)

theorem hmax_init (l : List (NodeHeight T)) (a m : Nat) :
    hmax l (max a m) = max a (hmax l m) := by
  induction l with
  | nil => simp [hmax]
  | cons p rest ih => simp [hmax, ih]; omega

theorem heightLoop_eq :
    ∀ (stack : Deque (NodeHeight T)) (maxH : Nat),
      heightLoop stack maxH = some (hmax stack.items maxH) := by
  intro stack maxH
  induction stack, maxH using heightLoop.induct with
  | case1 stack maxH hempty =>
    have hitems := Deque.isEmpty_true_iff.mp hempty
    rw [heightLoop, if_pos hempty, hitems]
    simp [hmax]
  | case2 stack maxH hempty hpop =>
    have hitems := popFront_none hpop
    rw [Deque.isEmpty_true_iff.symm] at hitems
    simp [hitems] at hempty
  | case3 stack maxH hempty item rest hpop ih =>
    have hitems := Deque.popFront_some hpop
    rw [heightLoop, if_neg hempty]
    split
    next heq => simp [hpop] at heq
    next a b heq =>
      rw [hpop] at heq
      simp only [Option.some.injEq, Prod.mk.injEq] at heq
      obtain ⟨h1, h2⟩ := heq
      subst h1
      subst h2
      simp only [dite_eq_ite] at ih
      rw [ih, hitems]
      obtain ⟨m, d⟩ := item
      have hswap : (if d > maxH then d else maxH) = max d maxH := by
        by_cases hc : d > maxH
        · simp [hc, Nat.max_eq_left (le_of_lt hc)]
        · simp [hc, Nat.max_eq_right (Nat.le_of_not_lt hc)]
      rw [hswap]
      cases m with
      | nil =>
        simp only [Node.left, Node.right, pushHFront, hmax, natHeight_nil]
        rw [hmax_init]
        simp only [Option.some.injEq, Nat.max_def]
        split_ifs <;> omega
      | node v l r =>
        cases hl : l <;> cases hr : r
        · simp only [Node.left, Node.right, pushHFront, hmax, natHeight_leaf]
          rw [hmax_init]
          simp only [Option.some.injEq, Nat.max_def]
          split_ifs <;> omega
        · rename_i rv rl rr
          simp only [Node.left, Node.right, pushHFront, Deque.pushFront, hmax]
          rw [hmax_init, natHeight_right v _ (by simp)]
          simp only [Option.some.injEq, Nat.max_def]
          split_ifs <;> omega
        · rename_i lv ll lr
          simp only [Node.left, Node.right, pushHFront, Deque.pushFront, hmax]
          rw [hmax_init, natHeight_left v _ (by simp)]
          simp only [Option.some.injEq, Nat.max_def]
          split_ifs <;> omega
        · rename_i lv ll lr rv rl rr
          simp only [Node.left, Node.right, pushHFront, Deque.pushFront, hmax]
          rw [hmax_init, natHeight_both v _ _ (by simp) (by simp)]
          simp only [Option.some.injEq, Nat.max_def]
          split_ifs <;> omega

theorem Height_eq (n : Node T) : Height n = some (natHeight n) := by
  rw [Height, heightLoop_eq]
  simp [Deque.new, Deque.pushFront, hmax]

theorem findLoopGo_eq (p : FindFunc T) :
    ∀ (stack : Deque (Node T)),
      (∀ x ∈ stack.items, x ≠ Node.nil) →
      FindNode.findLoopGo p stack =
        some ((catMap treeNodes stack.items).find? p) := by
  intro stack
  induction stack using FindNode.findLoopGo.induct p with
  | case1 stack hempty =>
    intro _
    have hitems := Deque.isEmpty_true_iff.mp hempty
    rw [FindNode.findLoopGo, if_pos hempty, hitems]
    simp [catMap]
  | case2 stack hempty hpop =>
    intro _
    have hitems := popFront_none hpop
    rw [Deque.isEmpty_true_iff.symm] at hitems
    simp [hitems] at hempty
  | case3 stack hempty node rest hpop hp =>
    intro hnn
    have hitems := Deque.popFront_some hpop
    rw [FindNode.findLoopGo, if_neg hempty]
    split
    next heq => simp [hpop] at heq
    next a b heq =>
      rw [hpop] at heq
      simp only [Option.some.injEq, Prod.mk.injEq] at heq
      obtain ⟨h1, h2⟩ := heq
      subst h1
      subst h2
      rw [if_pos hp]
      have hnode : node ≠ Node.nil := hnn node (by rw [hitems]; simp)
      rcases node with _ | ⟨v, l, r⟩
      · exact absurd rfl hnode
      · rw [hitems]
        simp only [catMap, treeNodes, List.cons_append]
        rw [List.find?_cons_of_pos _ hp]
  | case4 stack hempty node rest hpop hp ih =>
    intro hnn
    have hitems := Deque.popFront_some hpop
    rw [FindNode.findLoopGo, if_neg hempty]
    split
    next heq => simp [hpop] at heq
    next a b heq =>
      rw [hpop] at heq
      simp only [Option.some.injEq, Prod.mk.injEq] at heq
      obtain ⟨h1, h2⟩ := heq
      subst h1
      subst h2
      rw [if_neg (by simp [hp])]
      have hnode : node ≠ Node.nil := hnn node (by rw [hitems]; simp)
      have hrest : ∀ x ∈ rest.items, x ≠ Node.nil := by
        intro x hx
        exact hnn x (by rw [hitems]; exact List.mem_cons_of_mem _ hx)
      have hnew : ∀ x ∈ (pushFrontNN node.left (pushFrontNN node.right rest)).items,
          x ≠ Node.nil :=
        pushFrontNN_nonnil (pushFrontNN_nonnil hrest)
      rw [ih hnew, hitems]
      rw [catMap_pushFrontNN _ rfl, catMap_pushFrontNN _ rfl]
      rcases node with _ | ⟨v, l, r⟩
      · exact absurd rfl hnode
      · simp only [catMap, treeNodes, Node.left, Node.right, List.cons_append]
        rw [List.find?_cons_of_neg _ (by simp [hp])]
        simp

theorem FindNode_eq (skips : List (SkipNodeFunc T)) (p : FindFunc T)
    (n : Node T) (hn : n ≠ Node.nil) :
    FindNode skips p n = some ((treeNodes n).find? p) := by
  rw [FindNode, findLoopGo_eq]
  · simp [Deque.new, Deque.pushFront, catMap]
  · intro x hx
    simp [Deque.new, Deque.pushFront] at hx
    rw [hx]
    exact hn

theorem isFullLoop_isSome :
    ∀ (stack : Deque (Node T)), (isFullLoop stack).isSome = true := by
  intro stack
  induction stack using isFullLoop.induct with
  | case1 stack hempty => rw [isFullLoop, if_pos hempty]; rfl
  | case2 stack hempty hpop =>
    have hitems := popFront_none hpop
    rw [Deque.isEmpty_true_iff.symm] at hitems
    simp [hitems] at hempty
  | case3 stack hempty node rest hpop hleaf ih =>
    rw [isFullLoop, if_neg hempty]
    split
    next heq => simp [hpop] at heq
    next a b heq =>
      rw [hpop] at heq
      simp only [Option.some.injEq, Prod.mk.injEq] at heq
      obtain ⟨h1, h2⟩ := heq
      subst h1
      subst h2
      rw [if_pos hleaf]
      exact ih
  | case4 stack hempty node rest hpop hleaf hboth =>
    rw [isFullLoop, if_neg hempty]
    split
    next heq => simp [hpop] at heq
    next a b heq =>
      rw [hpop] at heq
      simp only [Option.some.injEq, Prod.mk.injEq] at heq
      obtain ⟨h1, h2⟩ := heq
      subst h1
      subst h2
      rw [if_neg hleaf, if_pos hboth]
      rfl
  | case5 stack hempty node rest hpop hleaf hboth ih =>
    rw [isFullLoop, if_neg hempty]
    split
    next heq => simp [hpop] at heq
    next a b heq =>
      rw [hpop] at heq
      simp only [Option.some.injEq, Prod.mk.injEq] at heq
      obtain ⟨h1, h2⟩ := heq
      subst h1
      subst h2
      rw [if_neg hleaf, if_neg hboth]
      exact ih

theorem isDegenerateLoop_isSome :
    ∀ (stack : Deque (Node T)), (isDegenerateLoop stack).isSome = true := by
  intro stack
  induction stack using isDegenerateLoop.induct with
  | case1 stack hempty => rw [isDegenerateLoop, if_pos hempty]; rfl
  | case2 stack hempty hpop =>
    have hitems := popFront_none hpop
    rw [Deque.isEmpty_true_iff.symm] at hitems
    simp [hitems] at hempty
  | case3 stack hempty node rest hpop hleaf ih =>
    rw [isDegenerateLoop, if_neg hempty]
    split
    next heq => simp [hpop] at heq
    next a b heq =>
      rw [hpop] at heq
      simp only [Option.some.injEq, Prod.mk.injEq] at heq
      obtain ⟨h1, h2⟩ := heq
      subst h1
      subst h2
      rw [if_pos hleaf]
      exact ih
  | case4 stack hempty node rest hpop hleaf hboth =>
    rw [isDegenerateLoop, if_neg hempty]
    split
    next heq => simp [hpop] at heq
    next a b heq =>
      rw [hpop] at heq
      simp only [Option.some.injEq, Prod.mk.injEq] at heq
      obtain ⟨h1, h2⟩ := heq
      subst h1
      subst h2
      rw [if_neg hleaf, if_pos hboth]
      rfl
  | case5 stack hempty node rest hpop hleaf hboth ih =>
    rw [isDegenerateLoop, if_neg hempty]
    split
    next heq => simp [hpop] at heq
    next a b heq =>
      rw [hpop] at heq
      simp only [Option.some.injEq, Prod.mk.injEq] at heq
      obtain ⟨h1, h2⟩ := heq
      subst h1
      subst h2
      rw [if_neg hleaf, if_neg hboth]
      exact ih

theorem childHeightPush_eq (child : Node T) (stack : Deque (Node T)) :
    childHeightPush child stack = some (iheight child, pushFrontNN child stack) := by
  cases child with
  | nil => rfl
  | node v l r =>
    rw [childHeightPush, Height_eq]
    have h : (0 : Int) ≤ iheight (Node.node v l r) := iheight_nonneg (by simp)
    simp [pushFrontNN, natHeight, Int.toNat_of_nonneg h]

/-- Conjunction of `balancedB` over a worklist. -/
def allBal : List (Node T) → Bool
  | [] => true
  | x :: rest => balancedB x && allBal rest

theorem allBal_pushFrontNN (m : Node T) (d : Deque (Node T)) :
    allBal (pushFrontNN m d).items = (balancedB m && allBal d.items) := by
  cases m <;> simp [pushFrontNN, Deque.pushFront, allBal, balancedB]

theorem isBalancedLoop_eq :
    ∀ (stack : Deque (Node T)),
      isBalancedLoop stack = some (allBal stack.items) := by
  intro stack
  induction stack using isBalancedLoop.induct with
  | case1 stack hempty =>
    have hitems := Deque.isEmpty_true_iff.mp hempty
    rw [isBalancedLoop, if_pos hempty, hitems]
    rfl
  | case2 stack hempty hpop =>
    have hitems := popFront_none hpop
    rw [Deque.isEmpty_true_iff.symm] at hitems
    simp [hitems] at hempty
  | case3 stack hempty node rest hpop hl =>
    rw [childHeightPush_eq] at hl
    exact absurd hl (by simp)
  | case4 stack hempty node rest hpop lh s1 hl hr =>
    rw [childHeightPush_eq] at hr
    exact absurd hr (by simp)
  | case5 stack hempty node rest hpop lh s1 hl rh s2 hr hdiff =>
    have hitems := Deque.popFront_some hpop
    rw [childHeightPush_eq] at hl hr
    simp only [Option.some.injEq, Prod.mk.injEq] at hl hr
    obtain ⟨hl1, hl2⟩ := hl
    obtain ⟨hr1, hr2⟩ := hr
    rw [isBalancedLoop, if_neg hempty]
    split
    next heq => simp [hpop] at heq
    next a b heq =>
      rw [hpop] at heq
      simp only [Option.some.injEq, Prod.mk.injEq] at heq
      obtain ⟨h1, h2⟩ := heq
      subst h1
      subst h2
      split
      next heq2 =>
        rw [childHeightPush_eq] at heq2
        exact absurd heq2 (by simp)
      next lh2 s12 heq2 =>
        rw [childHeightPush_eq] at heq2
        simp only [Option.some.injEq, Prod.mk.injEq] at heq2
        obtain ⟨hL1, hL2⟩ := heq2
        split
        next heq3 =>
          rw [childHeightPush_eq] at heq3
          exact absurd heq3 (by simp)
        next rh2 s22 heq3 =>
          rw [childHeightPush_eq] at heq3
          simp only [Option.some.injEq, Prod.mk.injEq] at heq3
          obtain ⟨hR1, hR2⟩ := heq3
          have hs1 : s12 = s1 := by rw [← hL2, hl2]
          subst hs1
          have hR1x : iheight node.right = rh2 := hR1
          rw [if_pos (by omega)]
          rw [hitems]
          rcases node with _ | ⟨v, l, r⟩
          · rw [← hl1, ← hr1] at hdiff
            simp [Node.left, Node.right, iheight] at hdiff
          · simp only [allBal]
            have hfalse : balancedB (Node.node v l r) = false := by
              rw [← hl1, ← hr1] at hdiff
              simp only [Node.left, Node.right] at hdiff
              simp [balancedB]
              omega
            rw [hfalse]
            rfl
  | case6 stack hempty node rest hpop lh s1 hl rh s2 hr hdiff ih =>
    have hitems := Deque.popFront_some hpop
    rw [childHeightPush_eq] at hl hr
    simp only [Option.some.injEq, Prod.mk.injEq] at hl hr
    obtain ⟨hl1, hl2⟩ := hl
    obtain ⟨hr1, hr2⟩ := hr
    rw [isBalancedLoop, if_neg hempty]
    split
    next heq => simp [hpop] at heq
    next a b heq =>
      rw [hpop] at heq
      simp only [Option.some.injEq, Prod.mk.injEq] at heq
      obtain ⟨h1, h2⟩ := heq
      subst h1
      subst h2
      split
      next heq2 =>
        rw [childHeightPush_eq] at heq2
        exact absurd heq2 (by simp)
      next lh2 s12 heq2 =>
        rw [childHeightPush_eq] at heq2
        simp only [Option.some.injEq, Prod.mk.injEq] at heq2
        obtain ⟨hL1, hL2⟩ := heq2
        split
        next heq3 =>
          rw [childHeightPush_eq] at heq3
          exact absurd heq3 (by simp)
        next rh2 s22 heq3 =>
          rw [childHeightPush_eq] at heq3
          simp only [Option.some.injEq, Prod.mk.injEq] at heq3
          obtain ⟨hR1, hR2⟩ := heq3
          have hs1 : s12 = s1 := by rw [← hL2, hl2]
          subst hs1
          have hs2 : s22 = s2 := by rw [← hR2, hr2]
          subst hs2
          rw [if_neg (by omega)]
          rw [ih, ← hR2, ← hL2, hitems]
          rw [allBal_pushFrontNN, allBal_pushFrontNN]
          rcases node with _ | ⟨v, l, r⟩
          · simp [Node.left, Node.right, allBal, balancedB]
          · simp only [Node.left, Node.right, allBal]
            have htrue : balancedB (Node.node v l r) = (balancedB l && balancedB r) := by
              rw [← hl1, ← hr1] at hdiff
              simp only [Node.left, Node.right] at hdiff
              simp [balancedB]
              omega
            rw [htrue]
            cases balancedB l <;> cases balancedB r <;> cases allBal rest.items <;> simp

theorem IsBalanced_eq (n : Node T) : IsBalanced n = some (balancedB n) := by
  rw [IsBalanced]
  by_cases h : (n.left.isNil && n.right.isNil) = true
  · rw [if_pos h]
    rcases n with _ | ⟨v, l, r⟩
    · rfl
    · simp only [Node.left, Node.right] at h
      rw [Bool.and_eq_true] at h
      cases l <;> cases r <;> simp [Node.isNil] at h ⊢ <;>
        simp [balancedB, iheight]
  · rw [if_neg h, isBalancedLoop_eq]
    simp [Deque.new, Deque.pushFront, allBal]

/-! ### Skip handlers, permutations, visibility -/

theorem shouldSkipNode_nil (x : Node T) :
    shouldSkipNode ([] : List (SkipNodeFunc T)) x = false := rfl

theorem shouldSkipNode_cons (p : SkipNodeFunc T) (rest : List (SkipNodeFunc T))
    (x : Node T) :
    shouldSkipNode (p :: rest) x = (p x || shouldSkipNode rest x) := rfl

theorem shouldSkipNode_add (skips : List (SkipNodeFunc T))
    (handler : SkipNodeFunc T) (x : Node T) :
    shouldSkipNode (AddSkipNodeFunc skips handler) x =
      (shouldSkipNode skips x || handler x) := by
  induction skips with
  | nil => simp [AddSkipNodeFunc, shouldSkipNode]
  | cons p rest ih =>
    simp only [AddSkipNodeFunc] at ih ⊢
    rw [List.cons_append, shouldSkipNode_cons, shouldSkipNode_cons, ih]
    cases p x <;> simp

theorem treeNodes_length (n : Node T) : (treeNodes n).length = nsize n := by
  induction n with
  | nil => rfl
  | node v l r ihl ihr => simp [treeNodes, nsize, ihl, ihr]; omega

theorem preList_empty (n : Node T) :
    preList ([] : List (SkipNodeFunc T)) n = treeNodes n := by
  induction n with
  | nil => rfl
  | node v l r ihl ihr => simp [preList, shouldSkipNode, treeNodes, ihl, ihr]

theorem inList_empty_perm (n : Node T) :
    (inList ([] : List (SkipNodeFunc T)) n).Perm (treeNodes n) := by
  induction n with
  | nil => simp [inList, treeNodes]
  | node v l r ihl ihr =>
    simp only [inList, shouldSkipNode, Bool.false_eq_true, if_false, treeNodes]
    exact List.Perm.trans List.perm_middle
      (List.Perm.cons _ (List.Perm.append ihl ihr))

theorem postList_empty_perm (n : Node T) :
    (postList ([] : List (SkipNodeFunc T)) n).Perm (treeNodes n) := by
  induction n with
  | nil => simp [postList, treeNodes]
  | node v l r ihl ihr =>
    simp only [postList, shouldSkipNode, Bool.false_eq_true, if_false, treeNodes]
    refine List.Perm.trans List.perm_append_comm ?_
    simp only [List.singleton_append]
    exact List.Perm.cons _ (List.Perm.append ihl ihr)

theorem catMap_childrenBack (n : Node T) :
    catMap treeNodes (childrenBack n) = treeNodes n.left ++ treeNodes n.right := by
  cases n with
  | nil => simp [childrenBack, Node.left, Node.right, catMap, treeNodes]
  | node v l r =>
    cases l <;> cases r <;>
      simp [childrenBack, Node.left, Node.right, catMap, treeNodes]

theorem childrenBack_nonnil (n : Node T) :
    ∀ x ∈ childrenBack n, x ≠ Node.nil := by
  cases n with
  | nil => simp [childrenBack, Node.left, Node.right]
  | node v l r =>
    cases l <;> cases r <;> simp [childrenBack, Node.left, Node.right]

theorem levelList_empty_perm :
    ∀ (q : List (Node T)), (∀ x ∈ q, x ≠ Node.nil) →
      (levelList ([] : List (SkipNodeFunc T)) q).Perm (catMap treeNodes q) := by
  intro q
  induction q using levelList.induct ([] : List (SkipNodeFunc T)) with
  | case1 => intro _; simp [levelList, catMap]
  | case2 m rest hskip ih =>
    rw [shouldSkipNode_nil] at hskip
    exact absurd hskip (by simp)
  | case3 m rest hskip ih =>
    intro hnn
    have hm : m ≠ Node.nil := hnn m (by simp)
    have hrest : ∀ x ∈ rest, x ≠ Node.nil := fun x hx => hnn x (by simp [hx])
    have hnew : ∀ x ∈ rest ++ childrenBack m, x ≠ Node.nil := by
      intro x hx
      rcases List.mem_append.mp hx with hx | hx
      · exact hrest x hx
      · exact childrenBack_nonnil m x hx
    have step : levelList ([] : List (SkipNodeFunc T)) (m :: rest) =
        m :: levelList [] (rest ++ childrenBack m) := by
      simp [levelList, shouldSkipNode]
    rw [step]
    rcases m with _ | ⟨v, l, r⟩
    · exact absurd rfl hm
    · have h1 := ih hnew
      rw [catMap_append, catMap_childrenBack] at h1
      simp only [Node.left, Node.right] at h1
      have h2 := h1.trans List.perm_append_comm
      have h3 := List.Perm.cons (Node.node v l r) h2
      simp only [catMap, treeNodes, List.cons_append]
      exact h3

theorem visible_skip {skips : List (SkipNodeFunc T)} {x : Node T}
    (h : shouldSkipNode skips x = true) : visible skips x = [] := by
  cases x with
  | nil => rfl
  | node v l r => simp [visible, h]

theorem visible_not_skipped {skips : List (SkipNodeFunc T)} :
    ∀ {n m : Node T}, m ∈ visible skips n → shouldSkipNode skips m = false := by
  intro n
  induction n with
  | nil => intro m h; simp [visible] at h
  | node v l r ihl ihr =>
    intro m h
    by_cases hs : shouldSkipNode skips (.node v l r) = true
    · simp [visible, hs] at h
    · rw [Bool.not_eq_true] at hs
      simp only [visible, hs, Bool.false_eq_true, if_false] at h
      rcases List.mem_cons.mp h with h | h
      · rw [h]; exact hs
      · rcases List.mem_append.mp h with h | h
        · exact ihl h
        · exact ihr h

theorem inList_subset_visible {skips : List (SkipNodeFunc T)} :
    ∀ {n m : Node T}, m ∈ inList skips n → m ∈ visible skips n := by
  intro n
  induction n with
  | nil => intro m h; simp [inList] at h
  | node v l r ihl ihr =>
    intro m h
    by_cases hs : shouldSkipNode skips (.node v l r) = true
    · simp [inList, hs] at h
    · rw [Bool.not_eq_true] at hs
      simp only [inList, hs, Bool.false_eq_true, if_false] at h
      simp only [visible, hs, Bool.false_eq_true, if_false]
      rcases List.mem_append.mp h with h | h
      · exact List.mem_cons_of_mem _ (List.mem_append_left _ (ihl h))
      · rcases List.mem_cons.mp h with h | h
        · simp [h]
        · exact List.mem_cons_of_mem _ (List.mem_append_right _ (ihr h))

theorem preList_subset_visible {skips : List (SkipNodeFunc T)} :
    ∀ {n m : Node T}, m ∈ preList skips n → m ∈ visible skips n := by
  intro n
  induction n with
  | nil => intro m h; simp [preList] at h
  | node v l r ihl ihr =>
    intro m h
    by_cases hs : shouldSkipNode skips (.node v l r) = true
    · simp [preList, hs] at h
    · rw [Bool.not_eq_true] at hs
      simp only [preList, hs, Bool.false_eq_true, if_false] at h
      simp only [visible, hs, Bool.false_eq_true, if_false]
      rcases List.mem_cons.mp h with h | h
      · simp [h]
      · rcases List.mem_append.mp h with h | h
        · exact List.mem_cons_of_mem _ (List.mem_append_left _ (ihl h))
        · exact List.mem_cons_of_mem _ (List.mem_append_right _ (ihr h))

theorem postList_subset_visible {skips : List (SkipNodeFunc T)} :
    ∀ {n m : Node T}, m ∈ postList skips n → m ∈ visible skips n := by
  intro n
  induction n with
  | nil => intro m h; simp [postList] at h
  | node v l r ihl ihr =>
    intro m h
    by_cases hs : shouldSkipNode skips (.node v l r) = true
    · simp [postList, hs] at h
    · rw [Bool.not_eq_true] at hs
      simp only [postList, hs, Bool.false_eq_true, if_false] at h
      simp only [visible, hs, Bool.false_eq_true, if_false]
      rcases List.mem_append.mp h with h | h
      · rcases List.mem_append.mp h with h | h
        · exact List.mem_cons_of_mem _ (List.mem_append_left _ (ihl h))
        · exact List.mem_cons_of_mem _ (List.mem_append_right _ (ihr h))
      · simp at h
        simp [h]

theorem visible_child_left {skips : List (SkipNodeFunc T)} {v : T}
    {l r m : Node T} (hs : shouldSkipNode skips (.node v l r) = false)
    (h : m ∈ visible skips l) : m ∈ visible skips (.node v l r) := by
  simp only [visible, hs, Bool.false_eq_true, if_false]
  exact List.mem_cons_of_mem _ (List.mem_append_left _ h)

theorem visible_child_right {skips : List (SkipNodeFunc T)} {v : T}
    {l r m : Node T} (hs : shouldSkipNode skips (.node v l r) = false)
    (h : m ∈ visible skips r) : m ∈ visible skips (.node v l r) := by
  simp only [visible, hs, Bool.false_eq_true, if_false]
  exact List.mem_cons_of_mem _ (List.mem_append_right _ h)

theorem levelList_subset_visible (skips : List (SkipNodeFunc T)) :
    ∀ (q : List (Node T)), (∀ x ∈ q, x ≠ Node.nil) →
      ∀ m ∈ levelList skips q, ∃ x ∈ q, m ∈ visible skips x := by
  intro q
  induction q using levelList.induct skips with
  | case1 => intro _ m h; simp [levelList] at h
  | case2 x rest hskip ih =>
    intro hnn m h
    have hrest : ∀ y ∈ rest, y ≠ Node.nil := fun y hy => hnn y (by simp [hy])
    rw [show levelList skips (x :: rest) = levelList skips rest by
      simp [levelList, hskip]] at h
    obtain ⟨y, hy, hm⟩ := ih hrest m h
    exact ⟨y, by simp [hy], hm⟩
  | case3 x rest hskip ih =>
    intro hnn m h
    have hx : x ≠ Node.nil := hnn x (by simp)
    have hrest : ∀ y ∈ rest, y ≠ Node.nil := fun y hy => hnn y (by simp [hy])
    have hnew : ∀ y ∈ rest ++ childrenBack x, y ≠ Node.nil := by
      intro y hy
      rcases List.mem_append.mp hy with hy | hy
      · exact hrest y hy
      · exact childrenBack_nonnil x y hy
    rw [show levelList skips (x :: rest) =
        x :: levelList skips (rest ++ childrenBack x) by
      simp [levelList, hskip]] at h
    rw [Bool.not_eq_true] at hskip
    rcases List.mem_cons.mp h with h | h
    · refine ⟨x, by simp, ?_⟩
      rcases x with _ | ⟨v, l, r⟩
      · exact absurd rfl hx
      · simp [visible, hskip, h]
    · obtain ⟨y, hy, hm⟩ := ih hnew m h
      rcases List.mem_append.mp hy with hy | hy
      · exact ⟨y, by simp [hy], hm⟩
      · refine ⟨x, by simp, ?_⟩
        rcases x with _ | ⟨v, l, r⟩
        · exact absurd rfl hx
        · simp only [childrenBack, Node.left, Node.right] at hy
          rcases List.mem_append.mp hy with hy | hy
          · cases l with
            | nil => simp at hy
            | node lv ll lr =>
              simp at hy
              rw [hy] at hm
              exact visible_child_left hskip hm
          · cases r with
            | nil => simp at hy
            | node rv rl rr =>
              simp at hy
              rw [hy] at hm
              exact visible_child_right hskip hm

theorem balancedB_iff (n : Node T) :
    balancedB n = true ↔
      ∀ m ∈ treeNodes n, (iheight m.left - iheight m.right).natAbs ≤ 1 := by
  induction n with
  | nil => simp [balancedB, treeNodes]
  | node v l r ihl ihr =>
    simp only [treeNodes, List.mem_cons, List.mem_append]
    constructor
    · intro h m hm
      by_cases hd : (iheight l - iheight r).natAbs ≤ 1
      · rw [balancedB, if_pos hd, Bool.and_eq_true] at h
        rcases hm with hm | hm | hm
        · rw [hm]; simpa [Node.left, Node.right] using hd
        · exact ihl.mp h.1 m hm
        · exact ihr.mp h.2 m hm
      · rw [balancedB, if_neg hd] at h
        exact absurd h (by simp)
    · intro h
      have hd : (iheight l - iheight r).natAbs ≤ 1 := by
        have := h (.node v l r) (Or.inl rfl)
        simpa [Node.left, Node.right] using this
      rw [balancedB, if_pos hd, Bool.and_eq_true]
      exact ⟨ihl.mpr (fun m hm => h m (Or.inr (Or.inl hm))),
        ihr.mpr (fun m hm => h m (Or.inr (Or.inr hm)))⟩

theorem inList_skip {skips : List (SkipNodeFunc T)} {x : Node T}
    (h : shouldSkipNode skips x = true) : inList skips x = [] := by
  cases x with
  | nil => rfl
  | node v l r => simp [inList, h]

theorem preList_skip {skips : List (SkipNodeFunc T)} {x : Node T}
    (h : shouldSkipNode skips x = true) : preList skips x = [] := by
  cases x with
  | nil => rfl
  | node v l r => simp [preList, h]

theorem postList_skip {skips : List (SkipNodeFunc T)} {x : Node T}
    (h : shouldSkipNode skips x = true) : postList skips x = [] := by
  cases x with
  | nil => rfl
  | node v l r => simp [postList, h]

theorem levelList_cons_skip {skips : List (SkipNodeFunc T)} {x : Node T}
    (q : List (Node T)) (h : shouldSkipNode skips x = true) :
    levelList skips (x :: q) = levelList skips q := by
  simp [levelList, h]

theorem inList_empty_length (n : Node T) :
    (inList ([] : List (SkipNodeFunc T)) n).length = nsize n := by
  rw [(inList_empty_perm n).length_eq, treeNodes_length]

theorem find?_first {p : FindFunc T} :
    ∀ (l₁ : List (Node T)) (m : Node T) (l₂ : List (Node T)),
      p m = true → (∀ x ∈ l₁, p x = false) →
      (l₁ ++ m :: l₂).find? p = some m := by
  intro l₁
  induction l₁ with
  | nil =>
    intro m l₂ hp _
    simp [List.find?_cons_of_pos _ hp]
  | cons x rest ih =>
    intro m l₂ hp hall
    have hx : p x = false := hall x (by simp)
    rw [List.cons_append, List.find?_cons_of_neg _ (by simp [hx])]
    exact ih m l₂ hp (fun y hy => hall y (by simp [hy]))

/-! ### Concrete instances -/

/-- Subtree rooted at value 2 of the example tree. -/
def t2 : Node Nat := .node 2 (.node 4 .nil .nil) (.node 5 .nil .nil)

/-- The five-node example tree `1(left=2(left=4,right=5), right=3)` built by
the test suite. -/
def t5 : Node Nat := .node 1 t2 (.node 3 .nil .nil)

/-- A visitor that never returns an error (the Go visitor returning `nil`). -/
def noErr : WalkFunc Nat Unit := fun _ => none

/-- Skip handler matching the node with value 2. -/
def skipTwo : SkipNodeFunc Nat := fun m =>
  match m with
  | .node 2 _ _ => true
  | _ => false

/-! ### The claims -/

/-- C1: on the five-node tree `1(2(4,5),3)` with no skip handlers, the four
walks visit the values in orders `[4,2,5,1,3]`, `[1,2,4,5,3]`,
`[4,5,2,3,1]` and `[1,2,3,4,5]` respectively and return the `nil` error,
`Size` returns 5 and `Height` returns 2. -/
theorem claim_C1 :
    (WalkInOrder [] noErr t5).map (fun res => (values res.1, res.2)) =
      some ([4, 2, 5, 1, 3], none)
    ∧ (WalkPreOrder [] noErr t5).map (fun res => (values res.1, res.2)) =
      some ([1, 2, 4, 5, 3], none)
    ∧ (WalkPostOrder [] noErr t5).map (fun res => (values res.1, res.2)) =
      some ([4, 5, 2, 3, 1], none)
    ∧ (WalkLevelOrder [] noErr t5).map (fun res => (values res.1, res.2)) =
      some ([1, 2, 3, 4, 5], none)
    ∧ Size [] t5 = some 5
    ∧ Height t5 = some 2 := by
  refine ⟨?_, ?_, ?_, ?_, ?_, ?_⟩
  · rw [WalkInOrder_eq]; rfl
  · rw [WalkPreOrder_eq _ _ _ (by decide)]; rfl
  · rw [WalkPostOrder_eq _ _ _ (by decide)]; rfl
  · rw [WalkLevelOrder_eq _ _ _ (by decide)]
    simp only [t5, t2]
    simp [levelList, childrenBack, shouldSkipNode, visitSeq, noErr, values,
      Node.left, Node.right]
  · rw [Size, WalkInOrder_eq]; rfl
  · rw [Height_eq]; rfl

theorem levelList_nil (skips : List (SkipNodeFunc T)) :
    levelList skips [] = [] := by
  simp [levelList]

/-- C2: skip handlers are applied in registration order with first-match
short-circuit; a candidate on which a handler fires is excluded together
with its whole subtree (walks rooted at it visit nothing, it contributes
nothing to any visiting order, and an already-scheduled queue of siblings
is processed unchanged); every node any walk visits passed the skip check
and is reachable without crossing a skipped node; concretely, skipping
value 2 in the five-node tree makes the in-order walk visit `[1, 3]`. -/
theorem claim_C2 {T ε : Type} (skips : List (SkipNodeFunc T))
    (p handler : SkipNodeFunc T) (f : WalkFunc T ε) (x n : Node T)
    (q : List (Node T)) (hx : shouldSkipNode skips x = true)
    (hxn : x ≠ Node.nil) (hn : n ≠ Node.nil) :
    (∀ y : Node T, shouldSkipNode (p :: skips) y = (p y || shouldSkipNode skips y))
    ∧ (∀ y : Node T, shouldSkipNode (AddSkipNodeFunc skips handler) y =
        (shouldSkipNode skips y || handler y))
    ∧ WalkInOrder skips f x = some ([], none)
    ∧ WalkPreOrder skips f x = some ([], none)
    ∧ WalkPostOrder skips f x = some ([], none)
    ∧ WalkLevelOrder skips f x = some ([], none)
    ∧ inList skips x = [] ∧ preList skips x = [] ∧ postList skips x = []
    ∧ levelList skips (x :: q) = levelList skips q
    ∧ visible skips x = []
    ∧ (∀ vs err, WalkInOrder skips f n = some (vs, err) →
        ∀ m ∈ vs, shouldSkipNode skips m = false ∧ m ∈ visible skips n)
    ∧ (∀ vs err, WalkPreOrder skips f n = some (vs, err) →
        ∀ m ∈ vs, shouldSkipNode skips m = false ∧ m ∈ visible skips n)
    ∧ (∀ vs err, WalkPostOrder skips f n = some (vs, err) →
        ∀ m ∈ vs, shouldSkipNode skips m = false ∧ m ∈ visible skips n)
    ∧ (∀ vs err, WalkLevelOrder skips f n = some (vs, err) →
        ∀ m ∈ vs, shouldSkipNode skips m = false ∧ m ∈ visible skips n)
    ∧ (WalkInOrder [skipTwo] noErr t5).map (fun res => (values res.1, res.2)) =
        some ([1, 3], none) := by
  refine ⟨fun y => rfl, fun y => shouldSkipNode_add skips handler y,
    ?_, ?_, ?_, ?_, inList_skip hx, preList_skip hx, postList_skip hx,
    levelList_cons_skip q hx, visible_skip hx, ?_, ?_, ?_, ?_, ?_⟩
  · rw [WalkInOrder_eq, inList_skip hx]; rfl
  · rw [WalkPreOrder_eq _ _ _ hxn, preList_skip hx]; rfl
  · rw [WalkPostOrder_eq _ _ _ hxn, postList_skip hx]; rfl
  · rw [WalkLevelOrder_eq _ _ _ hxn, levelList_cons_skip [] hx, levelList_nil]
    rfl
  · intro vs err h m hm
    rw [WalkInOrder_eq] at h
    simp only [Option.some.injEq, Prod.mk.injEq] at h
    rw [← h.1] at hm
    have hmem := inList_subset_visible (visitSeq_mem hm)
    exact ⟨visible_not_skipped hmem, hmem⟩
  · intro vs err h m hm
    rw [WalkPreOrder_eq _ _ _ hn] at h
    simp only [Option.some.injEq, Prod.mk.injEq] at h
    rw [← h.1] at hm
    have hmem := preList_subset_visible (visitSeq_mem hm)
    exact ⟨visible_not_skipped hmem, hmem⟩
  · intro vs err h m hm
    rw [WalkPostOrder_eq _ _ _ hn] at h
    simp only [Option.some.injEq, Prod.mk.injEq] at h
    rw [← h.1] at hm
    have hmem := postList_subset_visible (visitSeq_mem hm)
    exact ⟨visible_not_skipped hmem, hmem⟩
  · intro vs err h m hm
    rw [WalkLevelOrder_eq _ _ _ hn] at h
    simp only [Option.some.injEq, Prod.mk.injEq] at h
    rw [← h.1] at hm
    have hin := visitSeq_mem hm
    obtain ⟨y, hy, hmem⟩ := levelList_subset_visible skips [n]
      (by intro z hz; simp at hz; rw [hz]; exact hn) m hin
    simp at hy
    rw [hy] at hmem
    exact ⟨visible_not_skipped hmem, hmem⟩
  · rw [WalkInOrder_eq]; rfl

/-- Witness for C2: instantiated at the five-node tree with the
value-2 skip handler. -/
theorem claim_C2_witness :
    WalkInOrder [skipTwo] noErr t2 = some ([], none) :=
  (claim_C2 [skipTwo] skipTwo skipTwo noErr t2 t5 [] (by decide) (by decide)
    (by decide)).2.2.1

/-- C3: with no skip handlers, the four walks complete without error and
their visiting sequences are permutations of one another and of the node
multiset of the tree: same membership, each node visited exactly once,
only the order differs. -/
theorem claim_C3 {T ε : Type} (n : Node T) (hn : n ≠ Node.nil) :
    ∃ a b c d : List (Node T),
      WalkInOrder [] (fun _ => (none : Option ε)) n = some (a, none)
      ∧ WalkPreOrder [] (fun _ => (none : Option ε)) n = some (b, none)
      ∧ WalkPostOrder [] (fun _ => (none : Option ε)) n = some (c, none)
      ∧ WalkLevelOrder [] (fun _ => (none : Option ε)) n = some (d, none)
      ∧ a.Perm (treeNodes n) ∧ b.Perm (treeNodes n) ∧ c.Perm (treeNodes n)
      ∧ d.Perm (treeNodes n) ∧ a.Perm b ∧ a.Perm c ∧ a.Perm d := by
  have hnone : ∀ L : List (Node T),
      visitSeq (fun _ => (none : Option ε)) L = (L, none) :=
    fun L => visitSeq_all_none (fun _ _ => rfl)
  have ha : (inList ([] : List (SkipNodeFunc T)) n).Perm (treeNodes n) :=
    inList_empty_perm n
  have hb : (preList ([] : List (SkipNodeFunc T)) n).Perm (treeNodes n) := by
    rw [preList_empty]
  have hc : (postList ([] : List (SkipNodeFunc T)) n).Perm (treeNodes n) :=
    postList_empty_perm n
  have hd : (levelList ([] : List (SkipNodeFunc T)) [n]).Perm (treeNodes n) := by
    have h := levelList_empty_perm [n]
      (by intro z hz; simp at hz; rw [hz]; exact hn)
    simpa [catMap] using h
  refine ⟨inList [] n, preList [] n, postList [] n, levelList [] [n],
    ?_, ?_, ?_, ?_, ha, hb, hc, hd,
    ha.trans hb.symm, ha.trans hc.symm, ha.trans hd.symm⟩
  · rw [WalkInOrder_eq, hnone]
  · rw [WalkPreOrder_eq _ _ _ hn, hnone]
  · rw [WalkPostOrder_eq _ _ _ hn, hnone]
  · rw [WalkLevelOrder_eq _ _ _ hn, hnone]

/-- Witness for C3: instantiated at the five-node tree. -/
theorem claim_C3_witness :
    ∃ a b c d : List (Node Nat),
      WalkInOrder [] (fun _ => (none : Option Unit)) t5 = some (a, none)
      ∧ WalkPreOrder [] (fun _ => (none : Option Unit)) t5 = some (b, none)
      ∧ WalkPostOrder [] (fun _ => (none : Option Unit)) t5 = some (c, none)
      ∧ WalkLevelOrder [] (fun _ => (none : Option Unit)) t5 = some (d, none)
      ∧ a.Perm (treeNodes t5) ∧ b.Perm (treeNodes t5) ∧ c.Perm (treeNodes t5)
      ∧ d.Perm (treeNodes t5) ∧ a.Perm b ∧ a.Perm c ∧ a.Perm d :=
  claim_C3 t5 (by decide)

/-- C4: with no skip handlers `Size` returns the number of nodes of the
subtree: the number of visitor invocations of a complete in-order walk,
which satisfies the recurrence `1 + size(left) + size(right)` with absent
children contributing 0. -/
theorem claim_C4 {T : Type} (n : Node T) (v : T) (l r : Node T) :
    Size [] n = some (nsize n)
    ∧ nsize (Node.nil : Node T) = 0
    ∧ (∃ a b, Size [] l = some a ∧ Size [] r = some b ∧
        Size [] (.node v l r) = some (1 + a + b))
    ∧ (∃ vs, WalkInOrder [] (fun _ => (none : Option Unit)) n = some (vs, none)
        ∧ vs.length = nsize n) := by
  have hsize : ∀ m : Node T, Size ([] : List (SkipNodeFunc T)) m = some (nsize m) := by
    intro m
    rw [Size, WalkInOrder_eq]
    rw [visitSeq_all_none (fun _ _ => rfl)]
    simp [inList_empty_length]
  refine ⟨hsize n, rfl, ⟨nsize l, nsize r, hsize l, hsize r, ?_⟩,
    ⟨inList [] n, ?_, inList_empty_length n⟩⟩
  · rw [hsize (.node v l r)]
    simp [nsize]
  · rw [WalkInOrder_eq, visitSeq_all_none (fun _ _ => rfl)]

/-- C5: `Height` of a leaf is 0 and in general satisfies
`1 + max(height(left), height(right))` with an absent child contributing
`-1` (the `iheight` convention). -/
theorem claim_C5 {T : Type} (v : T) (l r : Node T) :
    Height (Node.node v l r) = some ((iheight (Node.node v l r)).toNat)
    ∧ (0 : Int) ≤ iheight (Node.node v l r)
    ∧ Height (Node.node v Node.nil Node.nil) = some 0
    ∧ iheight (Node.nil : Node T) = -1
    ∧ iheight (Node.node v l r) = 1 + max (iheight l) (iheight r)
    ∧ IsLeaf (Node.node v Node.nil Node.nil) = true := by
  refine ⟨?_, iheight_nonneg (by simp), ?_, rfl, rfl, rfl⟩
  · rw [Height_eq]; rfl
  · rw [Height_eq, natHeight_leaf]

/-- The error contract of a walk result: the visitor was invoked on a
sequence of nodes such that either no invocation returned an error and the
walk returned the `nil` error, or the last visited node returned error `e`,
every earlier invocation returned `nil`, and the walk returned exactly
`e`. -/
def ErrPropagates (w : Option (List (Node T) × Option ε))
    (f : WalkFunc T ε) : Prop :=
  ∃ vs err, w = some (vs, err) ∧
    ((err = none ∧ ∀ m ∈ vs, f m = none) ∨
     (∃ vs2 m e, vs = vs2 ++ [m] ∧ (∀ x ∈ vs2, f x = none) ∧
       f m = some e ∧ err = some e))

theorem visitSeq_errPropagates (f : WalkFunc T ε) (L : List (Node T)) :
    ErrPropagates (some ((visitSeq f L).1, (visitSeq f L).2)) f := by
  rcases visitSeq_cases f L with ⟨h2, h1, hall⟩ | ⟨vs2, m, e, h1, hm, h2, hall⟩
  · exact ⟨_, _, rfl, Or.inl ⟨h2, by rw [h1]; exact hall⟩⟩
  · exact ⟨_, _, rfl, Or.inr ⟨vs2, m, e, h1, hall, hm, h2⟩⟩

/-- C6: for each of the four walks, an error returned by the visitor stops
the walk at that node (no later visitor call) and is returned verbatim;
when the visitor never errs the walk returns the `nil` error. -/
theorem claim_C6 {T ε : Type} (skips : List (SkipNodeFunc T))
    (f : WalkFunc T ε) (n : Node T) (hn : n ≠ Node.nil) :
    ErrPropagates (WalkInOrder skips f n) f
    ∧ ErrPropagates (WalkPreOrder skips f n) f
    ∧ ErrPropagates (WalkPostOrder skips f n) f
    ∧ ErrPropagates (WalkLevelOrder skips f n) f := by
  refine ⟨?_, ?_, ?_, ?_⟩
  · rw [WalkInOrder_eq]; exact visitSeq_errPropagates f _
  · rw [WalkPreOrder_eq _ _ _ hn]; exact visitSeq_errPropagates f _
  · rw [WalkPostOrder_eq _ _ _ hn]; exact visitSeq_errPropagates f _
  · rw [WalkLevelOrder_eq _ _ _ hn]; exact visitSeq_errPropagates f _

/-- Witness for C6: instantiated at the five-node tree with a visitor
failing on value 2. -/
theorem claim_C6_witness :
    ErrPropagates
      (WalkInOrder [] (fun m => if skipTwo m then some 7 else none) t5)
      (fun m => if skipTwo m then some 7 else none)
    ∧ ErrPropagates
      (WalkPreOrder [] (fun m => if skipTwo m then some 7 else none) t5)
      (fun m => if skipTwo m then some 7 else none)
    ∧ ErrPropagates
      (WalkPostOrder [] (fun m => if skipTwo m then some 7 else none) t5)
      (fun m => if skipTwo m then some 7 else none)
    ∧ ErrPropagates
      (WalkLevelOrder [] (fun m => if skipTwo m then some 7 else none) t5)
      (fun m => if skipTwo m then some 7 else none) :=
  claim_C6 [] (fun m => if skipTwo m then some (7 : Nat) else none) t5
    (by decide)

/-- C7: no operation ever reaches a deque-error branch: every walk, as
well as `Height`, `FindNode`, `IsFull`, `IsDegenerate` and `IsBalanced`,
returns a proper result (`isSome`); the `none` outcome that models the
`ErrEmptyQueue`-guarded branches is unreachable because every pop follows
an emptiness check. -/
theorem claim_C7 {T ε : Type} (skips : List (SkipNodeFunc T))
    (f : WalkFunc T ε) (p : FindFunc T) (n : Node T) (hn : n ≠ Node.nil) :
    (WalkInOrder skips f n).isSome = true
    ∧ (WalkPreOrder skips f n).isSome = true
    ∧ (WalkPostOrder skips f n).isSome = true
    ∧ (WalkLevelOrder skips f n).isSome = true
    ∧ (Height n).isSome = true
    ∧ (FindNode skips p n).isSome = true
    ∧ (IsFull n).isSome = true
    ∧ (IsDegenerate n).isSome = true
    ∧ (IsBalanced n).isSome = true := by
  refine ⟨?_, ?_, ?_, ?_, ?_, ?_, ?_, ?_, ?_⟩
  · rw [WalkInOrder_eq]; rfl
  · rw [WalkPreOrder_eq _ _ _ hn]; rfl
  · rw [WalkPostOrder_eq _ _ _ hn]; rfl
  · rw [WalkLevelOrder_eq _ _ _ hn]; rfl
  · rw [Height_eq]; rfl
  · rw [FindNode_eq _ _ _ hn]; rfl
  · rw [IsFull]; exact isFullLoop_isSome _
  · rw [IsDegenerate]; exact isDegenerateLoop_isSome _
  · rw [IsBalanced_eq]; rfl

/-- Witness for C7: instantiated at the five-node tree. -/
theorem claim_C7_witness :
    (WalkInOrder [] noErr t5).isSome = true
    ∧ (WalkPreOrder [] noErr t5).isSome = true
    ∧ (WalkPostOrder [] noErr t5).isSome = true
    ∧ (WalkLevelOrder [] noErr t5).isSome = true
    ∧ (Height t5).isSome = true
    ∧ (FindNode [] skipTwo t5).isSome = true
    ∧ (IsFull t5).isSome = true
    ∧ (IsDegenerate t5).isSome = true
    ∧ (IsBalanced t5).isSome = true :=
  claim_C7 [] noErr skipTwo t5 (by decide)

/-- C8: `IsBalanced` returns `true` exactly when every node of the tree
has child subtree heights (with an absent child counting as height `-1`)
differing by at most one. -/
theorem claim_C8 {T : Type} (n : Node T) :
    (IsBalanced n = some true ↔
      ∀ m ∈ treeNodes n, (iheight m.left - iheight m.right).natAbs ≤ 1)
    ∧ IsBalanced n = some (balancedB n)
    ∧ iheight (Node.nil : Node T) = -1 := by
  refine ⟨?_, IsBalanced_eq n, rfl⟩
  rw [IsBalanced_eq n]
  rw [← balancedB_iff]
  simp

/-- Witness for C8: the five-node tree is balanced. -/
theorem claim_C8_witness :
    IsBalanced t5 = some true ∧ (1 : Int) - 0 = 1 := by
  constructor
  · rw [(claim_C8 t5).1]
    decide
  · rfl

/-- C9: `FindNode` returns the first node in pre-order (node before
children, left before right — the order of `treeNodes`) satisfying the
predicate, or the absent result when no node matches. -/
theorem claim_C9 {T : Type} (skips : List (SkipNodeFunc T)) (p : FindFunc T)
    (n : Node T) (hn : n ≠ Node.nil) :
    FindNode skips p n = some ((treeNodes n).find? p)
    ∧ ((∀ m ∈ treeNodes n, p m = false) → FindNode skips p n = some none)
    ∧ (∀ l₁ m l₂, treeNodes n = l₁ ++ m :: l₂ → p m = true →
        (∀ x ∈ l₁, p x = false) → FindNode skips p n = some (some m))
    ∧ (∀ m, FindNode skips p n = some (some m) →
        p m = true ∧ m ∈ treeNodes n) := by
  refine ⟨FindNode_eq skips p n hn, ?_, ?_, ?_⟩
  · intro h
    rw [FindNode_eq skips p n hn]
    have : (treeNodes n).find? p = none := by
      rw [List.find?_eq_none]
      intro x hx
      simp [h x hx]
    rw [this]
  · intro l₁ m l₂ hsplit hp hall
    rw [FindNode_eq skips p n hn, hsplit, find?_first l₁ m l₂ hp hall]
  · intro m h
    rw [FindNode_eq skips p n hn] at h
    simp only [Option.some.injEq] at h
    exact ⟨List.find?_some h, List.mem_of_find?_eq_some h⟩

/-- Witness for C9: finding value 2 in the five-node tree. -/
theorem claim_C9_witness :
    FindNode [] skipTwo t5 = some ((treeNodes t5).find? skipTwo) :=
  (claim_C9 [] skipTwo t5 (by decide)).1

/-- C10: `FindNode` never consults the skip handlers: its result does not
depend on the registered skip list, and a node that a skip handler hides
from every walk (value 2 of the five-node tree, making the in-order walk
visit only `[1, 3]`) is still found and returned. -/
theorem claim_C10 {T : Type} (skips skips2 : List (SkipNodeFunc T))
    (p : FindFunc T) (n : Node T) :
    FindNode skips p n = FindNode skips2 p n
    ∧ FindNode [skipTwo] skipTwo t5 = some (some t2)
    ∧ (WalkInOrder [skipTwo] noErr t5).map (fun res => (values res.1, res.2)) =
        some ([1, 3], none)
    ∧ shouldSkipNode [skipTwo] t2 = true := by
  refine ⟨rfl, ?_, ?_, by decide⟩
  · rw [FindNode_eq _ _ _ (by decide)]; rfl
  · rw [WalkInOrder_eq]; rfl

end BinaryTree
